import Mathlib

/-!
Verification development for the Case Scribe alignment service
(src/alignment_service/main.py).

The engine under study is:
  * `_tokenize`      : regex split `\w+|[^\w\s]` of a text into tokens;
  * `_align_stub`    : a diff of the two lower-cased token sequences using
                       Python's `difflib.SequenceMatcher` (isjunk=None,
                       autojunk=True), classified into `ErrorItem` records;
  * `_grammar_spell_flags` : a fixed known-error substring scan;
  * the corrector    : two chained `str.replace` substitutions;
  * the summary      : counts by type and a two-valued confidence score.

Texts are embedded as `List Char` (Python `str`), tokens as `List Char`,
token sequences as `List (List Char)`.  `difflib.SequenceMatcher` is part
of the program's behaviour and is embedded faithfully below (b2j with the
autojunk popularity filter, the j2len dynamic program with its strict
`k > bestsize` update, the four extension loops, the recursive
longest-matching-block decomposition, adjacent-block collapsing and the
terminating dummy block, and opcode generation).  Confidence scores are
embedded as rationals (0.75, 0.7, 0.95, 0.8).
-/

/-- A token: in the Python code a `str` produced by `re.findall`. -/
abbrev Tok : Type := List Char

/-- Word characters of the tokenizer regex `\w`: letters, digits and
underscore.  The embedding covers the ASCII fragment of Unicode `\w`;
every concrete input appearing in this file is ASCII. -/
def isWordChar (c : Char) : Bool := c.isAlphanum || c = '_'

/-- Whitespace characters of the tokenizer regex `\s` (ASCII fragment). -/
def isSpaceChar (c : Char) : Bool := c.isWhitespace

/-- Helper for `_tokenize`: `acc` is the reversed pending run of word
characters.  Emits maximal `\w+` runs as single tokens and every other
non-whitespace character as its own one-character token, exactly like
`re.findall(r"\w+|[^\w\s]", text)`. -/
def tokenizeAux : List Char → List Char → List Tok
  | acc, [] => if acc = [] then [] else [acc.reverse]
  | acc, c :: s =>
      if isWordChar c then tokenizeAux (c :: acc) s
      else
        (if acc = [] then [] else [acc.reverse]) ++
          (if isSpaceChar c then tokenizeAux [] s else [c] :: tokenizeAux [] s)

/-- `_tokenize(text)`: `re.findall(r"\w+|[^\w\s]", text, re.UNICODE)`. -/
def tokenizeL (s : List Char) : List Tok := tokenizeAux [] s

/-- Python `str.lower()` (ASCII fragment), applied by `_align_stub` to both
texts before tokenizing. -/
def lowerL (s : List Char) : List Char := s.map Char.toLower

/-- Python `" ".join(tokens)`. -/
def joinSp : List Tok → List Char
  | [] => []
  | [t] => t
  | t :: ts => t ++ ' ' :: joinSp ts

/-- Python slice `l[i1:i2]` for natural indices. -/
def sliceL (l : List Tok) (i1 i2 : Nat) : List Tok := (l.drop i1).take (i2 - i1)

/-- Python `s[:80]`. -/
def take80 (s : List Char) : List Char := s.take 80

/-- Decidable prefix test on character lists. -/
def isPreL : List Char → List Char → Bool
  | [], _ => true
  | _ :: _, [] => false
  | a :: p, b :: s => a = b && isPreL p s

/-- Python `needle in hay` (substring containment) on strings. -/
def occursL (p : List Char) : List Char → Bool
  | [] => isPreL p []
  | c :: rest => isPreL p (c :: rest) || occursL p rest

/-- Python `s.replace(old, new)` for a non-empty `old`: replace the
leftmost occurrence and continue scanning after the replacement.  (The
service only ever calls this with the two fixed non-empty patterns; for
an empty pattern this embedding returns `s` unchanged.) -/
def replaceL (p r : List Char) : List Char → List Char
  | [] => []
  | c :: s =>
      if p ≠ [] ∧ isPreL p (c :: s) = true then
        r ++ replaceL p r (s.drop (p.length - 1))
      else
        c :: replaceL p r s
termination_by s => s.length
decreasing_by
  all_goals simp
  omega

/-- A record of `class ErrorItem(BaseModel)`. -/
structure ErrorItem where
  line : Nat
  column : Nat
  original : List Char
  suggested : List Char
  confidence : ℚ
  type : List Char
deriving DecidableEq, Repr

/-- A record of `class Summary(BaseModel)`; `byType` is the insertion-ordered
Python dict embedded as an association list. -/
structure Summary where
  totalErrors : Nat
  byType : List (List Char × Nat)
  confidenceScore : ℚ
  processingTime : ℚ
deriving DecidableEq, Repr

/-! ## difflib.SequenceMatcher -/

/-- Opcode tags of `SequenceMatcher.get_opcodes`. -/
inductive Tag where
  | replace
  | delete
  | insert
  | equal
deriving DecidableEq, Repr

/-- One opcode `(tag, i1, i2, j1, j2)`. -/
structure Op where
  tag : Tag
  i1 : Nat
  i2 : Nat
  j1 : Nat
  j2 : Nat
deriving DecidableEq, Repr

/-- Ascending list of indices `j < b.length` with `b[j] = v`
(the `b2j.setdefault(elt, []).append(i)` loop of `__chain_b`). -/
def positionsAux (v : Tok) : List Tok → Nat → List Nat
  | [], _ => []
  | t :: ts, i =>
      (if t = v then [i] else []) ++ positionsAux v ts (i + 1)

/-- All positions of value `v` in `b`, ascending. -/
def positionsOf (b : List Tok) (v : Tok) : List Nat := positionsAux v b 0

/-- Number of occurrences of `v` in `b`. -/
def countTok (b : List Tok) (v : Tok) : Nat := (positionsOf b v).length

/-- The autojunk popularity test of `__chain_b`: with `n = len(b) >= 200`,
elements occurring more than `n // 100 + 1` times are dropped from `b2j`. -/
def isPopular (b : List Tok) (v : Tok) : Bool :=
  decide (200 ≤ b.length) && decide (b.length / 100 + 1 < countTok b v)

/-- `self.b2j` after `__chain_b` (isjunk=None, autojunk=True). -/
def b2j (b : List Tok) (v : Tok) : List Nat :=
  if isPopular b v then [] else positionsOf b v

/-- `self.bjunk` membership: `isjunk` is `None` in `_align_stub`, so the
junk set is empty. -/
def bjunk (_ : Tok) : Bool := false

/-- `j2len.get(j, 0)` on the association-list embedding of the dict. -/
def lookupJ : List (Nat × Nat) → Nat → Nat
  | [], _ => 0
  | (j, k) :: rest, j' => if j = j' then k else lookupJ rest j'

/-- The chain length assigned to column `j` in row `i` of the dynamic
program: `j2lenget(j-1, 0) + 1` (with Python's `j2len.get(-1, 0) = 0`). -/
def kOf (j2len : List (Nat × Nat)) (j : Nat) : Nat :=
  (if j = 0 then 0 else lookupJ j2len (j - 1)) + 1

/-- Inner loop of `find_longest_match` over `b2j.get(a[i])`: skips `j < blo`
(`continue`), stops at `j >= bhi` (`break`; the position list is ascending),
records `newj2len[j] = k` and updates the best block on strict improvement
`k > bestsize` with `(i-k+1, j-k+1, k)`. -/
def innerLoop (blo bhi i : Nat) (j2len : List (Nat × Nat)) :
    List Nat → List (Nat × Nat) → Nat × Nat × Nat → List (Nat × Nat) × (Nat × Nat × Nat)
  | [], acc, best => (acc, best)
  | j :: js, acc, best =>
      if j < blo then innerLoop blo bhi i j2len js acc best
      else if bhi ≤ j then (acc, best)
      else
        let k := kOf j2len j
        innerLoop blo bhi i j2len js (acc ++ [(j, k)])
          (if best.2.2 < k then (i + 1 - k, j + 1 - k, k) else best)

/-- Outer loop of `find_longest_match` over `i in range(alo, ahi)`;
`cnt` counts the remaining rows, so the current row is `i` with
`i + cnt = ahi`. -/
def outerLoop (b2jb : Tok → List Nat) (blo bhi : Nat) (a : List Tok) :
    Nat → Nat → List (Nat × Nat) → Nat × Nat × Nat → Nat × Nat × Nat
  | _, 0, _, best => best
  | i, cnt + 1, j2len, best =>
      let st := innerLoop blo bhi i j2len (b2jb (a.getD i [])) [] best
      outerLoop b2jb blo bhi a (i + 1) cnt st.1 st.2

/-- First extension loop: extend backwards over non-junk equal elements. -/
def extBack (a b : List Tok) (alo blo : Nat) : Nat × Nat × Nat → Nat × Nat × Nat
  | (besti, bestj, bestsize) =>
      if alo < besti ∧ blo < bestj ∧ bjunk (b.getD (bestj - 1) []) = false ∧
          a.getD (besti - 1) [] = b.getD (bestj - 1) [] then
        extBack a b alo blo (besti - 1, bestj - 1, bestsize + 1)
      else (besti, bestj, bestsize)
termination_by x => x.1
decreasing_by
  simp
  omega

/-- Second extension loop: extend forwards over non-junk equal elements. -/
def extFwd (a b : List Tok) (ahi bhi : Nat) : Nat × Nat × Nat → Nat × Nat × Nat
  | (besti, bestj, bestsize) =>
      if besti + bestsize < ahi ∧ bestj + bestsize < bhi ∧
          bjunk (b.getD (bestj + bestsize) []) = false ∧
          a.getD (besti + bestsize) [] = b.getD (bestj + bestsize) [] then
        extFwd a b ahi bhi (besti, bestj, bestsize + 1)
      else (besti, bestj, bestsize)
termination_by x => ahi - (x.1 + x.2.2)
decreasing_by
  simp
  omega

/-- Third extension loop: extend backwards over junk elements (vacuous here
since `bjunk` is empty, kept to mirror the source). -/
def extBackJunk (a b : List Tok) (alo blo : Nat) : Nat × Nat × Nat → Nat × Nat × Nat
  | (besti, bestj, bestsize) =>
      if alo < besti ∧ blo < bestj ∧ bjunk (b.getD (bestj - 1) []) = true ∧
          a.getD (besti - 1) [] = b.getD (bestj - 1) [] then
        extBackJunk a b alo blo (besti - 1, bestj - 1, bestsize + 1)
      else (besti, bestj, bestsize)
termination_by x => x.1
decreasing_by
  simp
  omega

/-- Fourth extension loop: extend forwards over junk elements (vacuous). -/
def extFwdJunk (a b : List Tok) (ahi bhi : Nat) : Nat × Nat × Nat → Nat × Nat × Nat
  | (besti, bestj, bestsize) =>
      if besti + bestsize < ahi ∧ bestj + bestsize < bhi ∧
          bjunk (b.getD (bestj + bestsize) []) = true ∧
          a.getD (besti + bestsize) [] = b.getD (bestj + bestsize) [] then
        extFwdJunk a b ahi bhi (besti, bestj, bestsize + 1)
      else (besti, bestj, bestsize)
termination_by x => ahi - (x.1 + x.2.2)
decreasing_by
  simp
  omega

/-- `SequenceMatcher.find_longest_match(alo, ahi, blo, bhi)`. -/
def findLongestMatch (a b : List Tok) (alo ahi blo bhi : Nat) : Nat × Nat × Nat :=
  extFwdJunk a b ahi bhi (extBackJunk a b alo blo
    (extFwd a b ahi bhi (extBack a b alo blo
      (outerLoop (b2j b) blo bhi a alo (ahi - alo) [] (alo, blo, 0)))))

/-! ### Soundness of the dynamic program

`MatchAt a b i j k` states `a[i:i+k] == b[j:j+k]` (with `getD` accesses).
The invariants below follow every state of `find_longest_match` and give
the block bounds needed for termination of the recursive decomposition,
the coverage invariant, and the genuineness of Equal opcodes. -/

/-- `a[i:i+k] == b[j:j+k]` elementwise. -/
def MatchAt (a b : List Tok) (i j k : Nat) : Prop :=
  ∀ t, t < k → a.getD (i + t) [] = b.getD (j + t) []

theorem matchAt_zero (a b : List Tok) (i j : Nat) : MatchAt a b i j 0 := by
  intro t ht
  omega

theorem matchAt_one (a b : List Tok) (i j : Nat)
    (h : a.getD i [] = b.getD j []) : MatchAt a b i j 1 := by
  intro t ht
  interval_cases t
  simpa using h

theorem matchAt_snoc (a b : List Tok) (i j k : Nat)
    (h : MatchAt a b i j k) (he : a.getD (i + k) [] = b.getD (j + k) []) :
    MatchAt a b i j (k + 1) := by
  intro t ht
  rcases Nat.lt_succ_iff_lt_or_eq.mp ht with h' | h'
  · exact h t h'
  · subst h'
    exact he

theorem matchAt_cons (a b : List Tok) (i j k : Nat)
    (h : MatchAt a b (i + 1) (j + 1) k) (he : a.getD i [] = b.getD j []) :
    MatchAt a b i j (k + 1) := by
  intro t ht
  cases t with
  | zero => simpa using he
  | succ t' =>
      have := h t' (by omega)
      simpa [Nat.add_right_comm, Nat.add_assoc, Nat.add_comm 1 t'] using this

/-- Invariant for the best block held by `find_longest_match`. -/
def BestInv (a b : List Tok) (alo ahi blo bhi : Nat) (best : Nat × Nat × Nat) : Prop :=
  alo ≤ best.1 ∧ blo ≤ best.2.1 ∧
  (best.2.2 = 0 → best.1 = alo ∧ best.2.1 = blo) ∧
  (best.2.2 ≠ 0 →
    best.1 + best.2.2 ≤ ahi ∧ best.2.1 + best.2.2 ≤ bhi ∧
    MatchAt a b best.1 best.2.1 best.2.2)

/-- Invariant for the `j2len` dict: at the start of row `r`, an entry
`(j, k)` records a genuine chain of length `k` ending at row `r - 1`,
column `j`. -/
def JInv (a b : List Tok) (alo blo bhi r : Nat) (m : List (Nat × Nat)) : Prop :=
  ∀ p ∈ m, blo ≤ p.1 ∧ p.1 < bhi ∧ 1 ≤ p.2 ∧ p.2 + alo ≤ r ∧
    p.2 + blo ≤ p.1 + 1 ∧ MatchAt a b (r - p.2) (p.1 + 1 - p.2) p.2

theorem lookupJ_mem (m : List (Nat × Nat)) (j : Nat) (h : lookupJ m j ≠ 0) :
    (j, lookupJ m j) ∈ m := by
  induction m with
  | nil => simp [lookupJ] at h
  | cons p rest ih =>
      obtain ⟨j', k'⟩ := p
      by_cases hj : j' = j
      · subst hj
        simp [lookupJ]
      · simp only [lookupJ, if_neg hj] at h ⊢
        exact List.mem_cons_of_mem _ (ih h)

theorem positionsAux_mem (v : Tok) (ts : List Tok) (o j : Nat)
    (h : j ∈ positionsAux v ts o) :
    o ≤ j ∧ j < o + ts.length ∧ ts.getD (j - o) [] = v := by
  induction ts generalizing o with
  | nil => simp [positionsAux] at h
  | cons t ts ih =>
      simp only [positionsAux, List.mem_append] at h
      rcases h with h | h
      · by_cases ht : t = v
        · simp [ht] at h
          subst h
          simp [ht]
        · simp [ht] at h
      · obtain ⟨h1, h2, h3⟩ := ih (o + 1) h
        refine ⟨by omega, by simp; omega, ?_⟩
        have hj : j - o = (j - (o + 1)) + 1 := by omega
        rw [hj] at *
        simpa using h3

theorem b2j_value (b : List Tok) (v : Tok) (j : Nat) (h : j ∈ b2j b v) :
    b.getD j [] = v := by
  unfold b2j at h
  split at h
  · simp at h
  · obtain ⟨_, _, h3⟩ := positionsAux_mem v b 0 j h
    simpa using h3

theorem innerLoop_sound (a b : List Tok) (alo ahi blo bhi i : Nat)
    (js : List Nat) (j2len : List (Nat × Nat))
    (hjs : ∀ j ∈ js, b.getD j [] = a.getD i [])
    (hai : alo ≤ i) (hia : i < ahi)
    (hJ : JInv a b alo blo bhi i j2len) :
    ∀ (acc : List (Nat × Nat)) (best : Nat × Nat × Nat),
    JInv a b alo blo bhi (i + 1) acc →
    BestInv a b alo ahi blo bhi best →
    JInv a b alo blo bhi (i + 1) (innerLoop blo bhi i j2len js acc best).1 ∧
    BestInv a b alo ahi blo bhi (innerLoop blo bhi i j2len js acc best).2 := by
  induction js with
  | nil =>
      intro acc best hacc hbest
      exact ⟨hacc, hbest⟩
  | cons j js ih =>
      intro acc best hacc hbest
      have hjv : b.getD j [] = a.getD i [] := hjs j (List.mem_cons_self j js)
      have hjs' : ∀ j' ∈ js, b.getD j' [] = a.getD i [] :=
        fun j' hj' => hjs j' (List.mem_cons_of_mem j hj')
      by_cases hb : j < blo
      · simp only [innerLoop, if_pos hb]
        exact ih hjs' acc best hacc hbest
      · by_cases hh : bhi ≤ j
        · simp only [innerLoop, if_neg hb, if_pos hh]
          exact ⟨hacc, hbest⟩
        · simp only [innerLoop, if_neg hb, if_neg hh]
          have hbloj : blo ≤ j := by omega
          have hjbhi : j < bhi := by omega
          -- facts about the freshly computed chain length
          have hk1 : 1 ≤ kOf j2len j := by
            unfold kOf
            omega
          have hkey : kOf j2len j + alo ≤ i + 1 ∧ kOf j2len j + blo ≤ j + 1 ∧
              MatchAt a b (i + 1 - kOf j2len j) (j + 1 - kOf j2len j) (kOf j2len j) := by
            by_cases hj0 : j = 0
            · have hkeq : kOf j2len j = 1 := by simp [kOf, hj0]
              rw [hkeq]
              refine ⟨by omega, by omega, ?_⟩
              have h1 : MatchAt a b i j 1 := matchAt_one a b i j hjv.symm
              simpa using h1
            · by_cases hk0 : lookupJ j2len (j - 1) = 0
              · have hkeq : kOf j2len j = 1 := by simp [kOf, hj0, hk0]
                rw [hkeq]
                refine ⟨by omega, by omega, ?_⟩
                have h1 : MatchAt a b i j 1 := matchAt_one a b i j hjv.symm
                simpa using h1
              · have hkeq : kOf j2len j = lookupJ j2len (j - 1) + 1 := by
                  simp [kOf, hj0]
                obtain ⟨h1, h2, h3, h4, h5, h6⟩ := hJ _ (lookupJ_mem j2len (j - 1) hk0)
                simp only at h1 h2 h3 h4 h5 h6
                rw [hkeq]
                set k0 := lookupJ j2len (j - 1) with hk0def
                refine ⟨by omega, by omega, ?_⟩
                have hje : j - 1 + 1 = j := by omega
                rw [hje] at h5 h6
                have hi0 : i + 1 - (k0 + 1) = i - k0 := by omega
                have hj0' : j + 1 - (k0 + 1) = j - k0 := by omega
                rw [hi0, hj0']
                refine matchAt_snoc a b (i - k0) (j - k0) k0 h6 ?_
                have e1 : i - k0 + k0 = i := by omega
                have e2 : j - k0 + k0 = j := by omega
                rw [e1, e2]
                exact hjv.symm
          obtain ⟨hkalo, hkblo, hkmatch⟩ := hkey
          -- invariant for the extended accumulator
          have hacc' : JInv a b alo blo bhi (i + 1) (acc ++ [(j, kOf j2len j)]) := by
            intro p hp
            rcases List.mem_append.mp hp with hp | hp
            · exact hacc p hp
            · simp at hp
              subst hp
              exact ⟨hbloj, hjbhi, hk1, hkalo, hkblo, hkmatch⟩
          -- invariant for the possibly updated best block
          have hbest' : BestInv a b alo ahi blo bhi
              (if best.2.2 < kOf j2len j then
                (i + 1 - kOf j2len j, j + 1 - kOf j2len j, kOf j2len j) else best) := by
            by_cases hlt : best.2.2 < kOf j2len j
            · rw [if_pos hlt]
              unfold BestInv
              dsimp only
              refine ⟨by omega, by omega, by intro h0; omega, ?_⟩
              intro _
              refine ⟨by omega, by omega, hkmatch⟩
            · rw [if_neg hlt]
              exact hbest
          exact ih hjs' _ _ hacc' hbest'

theorem outerLoop_sound (a b : List Tok) (alo ahi blo bhi : Nat) :
    ∀ (cnt i : Nat) (j2len : List (Nat × Nat)) (best : Nat × Nat × Nat),
    alo ≤ i → (i + cnt ≤ ahi ∨ cnt = 0) →
    JInv a b alo blo bhi i j2len →
    BestInv a b alo ahi blo bhi best →
    BestInv a b alo ahi blo bhi (outerLoop (b2j b) blo bhi a i cnt j2len best) := by
  intro cnt
  induction cnt with
  | zero =>
      intro i j2len best _ _ _ hbest
      exact hbest
  | succ c ih =>
      intro i j2len best hai hcnt hJ hbest
      have hia : i < ahi := by omega
      simp only [outerLoop]
      have hjs : ∀ j ∈ b2j b (a.getD i []), b.getD j [] = a.getD i [] :=
        fun j hj => b2j_value b _ j hj
      have h := innerLoop_sound a b alo ahi blo bhi i _ j2len hjs hai hia hJ
        [] best (by intro p hp; simp at hp) hbest
      exact ih (i + 1) _ _ (by omega) (by omega) h.1 h.2

theorem extBack_sound (a b : List Tok) (alo ahi blo bhi : Nat) :
    ∀ (x : Nat × Nat × Nat),
    BestInv a b alo ahi blo bhi x →
    BestInv a b alo ahi blo bhi (extBack a b alo blo x) := by
  have main : ∀ (n : Nat) (x : Nat × Nat × Nat), x.1 = n →
      BestInv a b alo ahi blo bhi x →
      BestInv a b alo ahi blo bhi (extBack a b alo blo x) := by
    intro n
    induction n using Nat.strong_induction_on with
    | _ n ih =>
        intro x hxn hb
        obtain ⟨besti, bestj, bestsize⟩ := x
        simp only at hxn
        rw [extBack]
        split
        · rename_i h
          obtain ⟨h1, h2, h3, h4⟩ := h
          obtain ⟨hb1, hb2, hb3, hb4⟩ := hb
          simp only at hb1 hb2 hb3 hb4
          have hsz : bestsize ≠ 0 := by
            intro h0
            have := (hb3 h0).1
            omega
          obtain ⟨hc1, hc2, hc3⟩ := hb4 hsz
          apply ih (besti - 1) (by omega) (besti - 1, bestj - 1, bestsize + 1) rfl
          refine ⟨by dsimp only; omega, by dsimp only; omega, ?_, ?_⟩
          · intro h0
            exact absurd h0 (Nat.succ_ne_zero _)
          · intro _
            dsimp only
            refine ⟨by omega, by omega, ?_⟩
            have e1 : besti - 1 + 1 = besti := by omega
            have e2 : bestj - 1 + 1 = bestj := by omega
            refine matchAt_cons a b (besti - 1) (bestj - 1) bestsize ?_ h4
            rw [e1, e2]
            exact hc3
        · exact hb
  exact fun x => main x.1 x rfl

theorem extFwd_sound (a b : List Tok) (alo ahi blo bhi : Nat) :
    ∀ (n : Nat) (x : Nat × Nat × Nat), ahi - (x.1 + x.2.2) = n →
    BestInv a b alo ahi blo bhi x →
    BestInv a b alo ahi blo bhi (extFwd a b ahi bhi x) := by
  intro n
  induction n using Nat.strong_induction_on with
  | _ n ih =>
      intro x hn hb
      obtain ⟨besti, bestj, bestsize⟩ := x
      simp only at hn
      rw [extFwd]
      split
      · rename_i h
        obtain ⟨h1, h2, h3, h4⟩ := h
        obtain ⟨hb1, hb2, hb3, hb4⟩ := hb
        simp only at hb1 hb2 hb3 hb4
        apply ih (ahi - (besti + (bestsize + 1))) (by omega) (besti, bestj, bestsize + 1) rfl
        refine ⟨by dsimp only; omega, by dsimp only; omega, ?_, ?_⟩
        · intro h0
          exact absurd h0 (Nat.succ_ne_zero _)
        · intro _
          dsimp only
          refine ⟨by omega, by omega, ?_⟩
          by_cases hsz : bestsize = 0
          · subst hsz
            exact matchAt_one a b besti bestj h4
          · exact matchAt_snoc a b besti bestj bestsize (hb4 hsz).2.2 h4
      · exact hb

theorem extBackJunk_id (a b : List Tok) (alo blo : Nat) (x : Nat × Nat × Nat) :
    extBackJunk a b alo blo x = x := by
  obtain ⟨besti, bestj, bestsize⟩ := x
  rw [extBackJunk]
  simp [bjunk]

theorem extFwdJunk_id (a b : List Tok) (ahi bhi : Nat) (x : Nat × Nat × Nat) :
    extFwdJunk a b ahi bhi x = x := by
  obtain ⟨besti, bestj, bestsize⟩ := x
  rw [extFwdJunk]
  simp [bjunk]

/-- Soundness of `find_longest_match`: the returned block `(i, j, k)` is a
genuine in-range match, and a zero-size result sits at `(alo, blo)`. -/
theorem flm_sound (a b : List Tok) (alo ahi blo bhi : Nat) :
    BestInv a b alo ahi blo bhi (findLongestMatch a b alo ahi blo bhi) := by
  have hinit : BestInv a b alo ahi blo bhi (alo, blo, 0) :=
    ⟨le_refl _, le_refl _, fun _ => ⟨rfl, rfl⟩, fun h => absurd rfl h⟩
  have hcore := outerLoop_sound a b alo ahi blo bhi (ahi - alo) alo [] (alo, blo, 0)
    (le_refl _) (by omega) (by intro p hp; simp at hp) hinit
  unfold findLongestMatch
  rw [extFwdJunk_id, extBackJunk_id]
  exact extFwd_sound a b alo ahi blo bhi _ _ rfl
    (extBack_sound a b alo ahi blo bhi _ hcore)

/-- Recursive form of `get_matching_blocks`' queue loop.  The queue in the
source explores disjoint index subranges and sorts the collected blocks;
since every block found left of a split point precedes it, the sorted
result coincides with this in-order recursion. -/
def matchingBlocksRec (a b : List Tok) (alo ahi blo bhi : Nat) : List (Nat × Nat × Nat) :=
  let m := findLongestMatch a b alo ahi blo bhi
  if hk : m.2.2 = 0 then []
  else
    (if hl : alo < m.1 ∧ blo < m.2.1 then matchingBlocksRec a b alo m.1 blo m.2.1 else []) ++
      (m.1, m.2.1, m.2.2) ::
        (if hr : m.1 + m.2.2 < ahi ∧ m.2.1 + m.2.2 < bhi then
          matchingBlocksRec a b (m.1 + m.2.2) ahi (m.2.1 + m.2.2) bhi else [])
termination_by (ahi - alo) + (bhi - blo)
decreasing_by
  · obtain ⟨hs1, hs2, hs3, hs4⟩ := flm_sound a b alo ahi blo bhi
    have hk' : (findLongestMatch a b alo ahi blo bhi).2.2 ≠ 0 := hk
    have hl' : alo < (findLongestMatch a b alo ahi blo bhi).1 ∧
        blo < (findLongestMatch a b alo ahi blo bhi).2.1 := hl
    have h4 := hs4 hk'
    omega
  · obtain ⟨hs1, hs2, hs3, hs4⟩ := flm_sound a b alo ahi blo bhi
    have hk' : (findLongestMatch a b alo ahi blo bhi).2.2 ≠ 0 := hk
    have hr' : (findLongestMatch a b alo ahi blo bhi).1 + (findLongestMatch a b alo ahi blo bhi).2.2 < ahi ∧
        (findLongestMatch a b alo ahi blo bhi).2.1 + (findLongestMatch a b alo ahi blo bhi).2.2 < bhi := hr
    have h4 := hs4 hk'
    omega

/-- Blocks are ≥ 1 long, chained left to right on both sides, and bounded
by `(ahi, bhi)`. -/
def BChain (ahi bhi : Nat) : Nat → Nat → List (Nat × Nat × Nat) → Prop
  | _, _, [] => True
  | alo, blo, (i, j, k) :: rest =>
      alo ≤ i ∧ blo ≤ j ∧ 1 ≤ k ∧ i + k ≤ ahi ∧ j + k ≤ bhi ∧
        BChain ahi bhi (i + k) (j + k) rest

/-- Every listed block is a genuine elementwise match. -/
def AllMatch (a b : List Tok) (blocks : List (Nat × Nat × Nat)) : Prop :=
  ∀ x ∈ blocks, MatchAt a b x.1 x.2.1 x.2.2

theorem bchain_graft (ahi bhi i j k : Nat) (R : List (Nat × Nat × Nat)) :
    ∀ (L : List (Nat × Nat × Nat)) (alo blo : Nat),
    BChain i j alo blo L → alo ≤ i → blo ≤ j → 1 ≤ k →
    i + k ≤ ahi → j + k ≤ bhi → BChain ahi bhi (i + k) (j + k) R →
    BChain ahi bhi alo blo (L ++ (i, j, k) :: R) := by
  intro L
  induction L with
  | nil =>
      intro alo blo _ h1 h2 h3 h4 h5 hR
      exact ⟨h1, h2, h3, h4, h5, hR⟩
  | cons p L ih =>
      obtain ⟨pi, pj, pk⟩ := p
      intro alo blo hL h1 h2 h3 h4 h5 hR
      obtain ⟨l1, l2, l3, l4, l5, l6⟩ := hL
      exact ⟨l1, l2, l3, by omega, by omega,
        ih (pi + pk) (pj + pk) l6 (by omega) (by omega) h3 h4 h5 hR⟩

theorem matchingBlocksRec_sound (a b : List Tok) :
    ∀ (n alo ahi blo bhi : Nat), (ahi - alo) + (bhi - blo) = n →
    BChain ahi bhi alo blo (matchingBlocksRec a b alo ahi blo bhi) ∧
    AllMatch a b (matchingBlocksRec a b alo ahi blo bhi) := by
  intro n
  induction n using Nat.strong_induction_on with
  | _ n ih =>
      intro alo ahi blo bhi hn
      obtain ⟨hs1, hs2, hs3, hs4⟩ := flm_sound a b alo ahi blo bhi
      rw [matchingBlocksRec]
      split
      · exact ⟨trivial, by intro x hx; simp at hx⟩
      · rename_i hk
        obtain ⟨hc1, hc2, hc3⟩ := hs4 hk
        have hL : BChain (findLongestMatch a b alo ahi blo bhi).1
            (findLongestMatch a b alo ahi blo bhi).2.1 alo blo
            (if alo < (findLongestMatch a b alo ahi blo bhi).1 ∧
                blo < (findLongestMatch a b alo ahi blo bhi).2.1 then
              matchingBlocksRec a b alo (findLongestMatch a b alo ahi blo bhi).1
                blo (findLongestMatch a b alo ahi blo bhi).2.1 else []) ∧
            AllMatch a b
            (if alo < (findLongestMatch a b alo ahi blo bhi).1 ∧
                blo < (findLongestMatch a b alo ahi blo bhi).2.1 then
              matchingBlocksRec a b alo (findLongestMatch a b alo ahi blo bhi).1
                blo (findLongestMatch a b alo ahi blo bhi).2.1 else []) := by
          split
          · rename_i hl
            exact ih _ (by omega) alo _ blo _ rfl
          · exact ⟨trivial, by intro x hx; simp at hx⟩
        have hR : BChain ahi bhi
            ((findLongestMatch a b alo ahi blo bhi).1 + (findLongestMatch a b alo ahi blo bhi).2.2)
            ((findLongestMatch a b alo ahi blo bhi).2.1 + (findLongestMatch a b alo ahi blo bhi).2.2)
            (if (findLongestMatch a b alo ahi blo bhi).1 + (findLongestMatch a b alo ahi blo bhi).2.2 < ahi ∧
                (findLongestMatch a b alo ahi blo bhi).2.1 + (findLongestMatch a b alo ahi blo bhi).2.2 < bhi then
              matchingBlocksRec a b
                ((findLongestMatch a b alo ahi blo bhi).1 + (findLongestMatch a b alo ahi blo bhi).2.2) ahi
                ((findLongestMatch a b alo ahi blo bhi).2.1 + (findLongestMatch a b alo ahi blo bhi).2.2) bhi else []) ∧
            AllMatch a b
            (if (findLongestMatch a b alo ahi blo bhi).1 + (findLongestMatch a b alo ahi blo bhi).2.2 < ahi ∧
                (findLongestMatch a b alo ahi blo bhi).2.1 + (findLongestMatch a b alo ahi blo bhi).2.2 < bhi then
              matchingBlocksRec a b
                ((findLongestMatch a b alo ahi blo bhi).1 + (findLongestMatch a b alo ahi blo bhi).2.2) ahi
                ((findLongestMatch a b alo ahi blo bhi).2.1 + (findLongestMatch a b alo ahi blo bhi).2.2) bhi else []) := by
          split
          · rename_i hr
            exact ih _ (by omega) _ ahi _ bhi rfl
          · exact ⟨trivial, by intro x hx; simp at hx⟩
        constructor
        · exact bchain_graft ahi bhi _ _ _ _ _ alo blo hL.1 hs1 hs2 (by omega) hc1 hc2 hR.1
        · intro x hx
          rcases List.mem_append.mp hx with hx | hx
          · exact hL.2 x hx
          · rcases List.mem_cons.mp hx with hx | hx
            · subst hx
              exact hc3
            · exact hR.2 x hx

/-- The `non_adjacent` collapsing loop of `get_matching_blocks`: merge
adjacent blocks, flush the pending block when non-adjacent, and finish with
the pending block (if any) plus the dummy terminator `(la, lb, 0)`. -/
def collapseAux (la lb : Nat) : Nat → Nat → Nat → List (Nat × Nat × Nat) → List (Nat × Nat × Nat)
  | i1, j1, k1, [] => (if k1 ≠ 0 then [(i1, j1, k1)] else []) ++ [(la, lb, 0)]
  | i1, j1, k1, (i2, j2, k2) :: rest =>
      if i1 + k1 = i2 ∧ j1 + k1 = j2 then collapseAux la lb i1 j1 (k1 + k2) rest
      else (if k1 ≠ 0 then [(i1, j1, k1)] else []) ++ collapseAux la lb i2 j2 k2 rest

/-- `SequenceMatcher.get_matching_blocks()`. -/
def getMatchingBlocks (a b : List Tok) : List (Nat × Nat × Nat) :=
  collapseAux a.length b.length 0 0 0 (matchingBlocksRec a b 0 a.length 0 b.length)

/-- Shape of the collapsed block list consumed by `get_opcodes`, walking
from position `(i, j)`: every block starts at or after the current
position, real blocks have size ≥ 1 and stay within `(la, lb)`, and the
list ends with exactly the dummy `(la, lb, 0)`. -/
def GBlocks (la lb : Nat) : Nat → Nat → List (Nat × Nat × Nat) → Prop
  | _, _, [] => False
  | i, j, (ai, bj, k) :: rest =>
      (rest = [] ∧ ai = la ∧ bj = lb ∧ k = 0 ∧ i ≤ la ∧ j ≤ lb) ∨
      (i ≤ ai ∧ j ≤ bj ∧ 1 ≤ k ∧ ai + k ≤ la ∧ bj + k ≤ lb ∧
        GBlocks la lb (ai + k) (bj + k) rest)

theorem collapseAux_sound (la lb : Nat) :
    ∀ (blocks : List (Nat × Nat × Nat)) (i1 j1 k1 i j : Nat),
    i ≤ i1 → j ≤ j1 → i1 + k1 ≤ la → j1 + k1 ≤ lb →
    BChain la lb (i1 + k1) (j1 + k1) blocks →
    GBlocks la lb i j (collapseAux la lb i1 j1 k1 blocks) := by
  intro blocks
  induction blocks with
  | nil =>
      intro i1 j1 k1 i j h1 h2 h3 h4 _
      by_cases hk : k1 ≠ 0
      · simp only [collapseAux, if_pos hk, List.cons_append, List.nil_append]
        refine Or.inr ⟨h1, h2, by omega, h3, h4, ?_⟩
        exact Or.inl ⟨rfl, rfl, rfl, rfl, h3, h4⟩
      · simp only [collapseAux, if_neg hk, List.nil_append]
        exact Or.inl ⟨rfl, rfl, rfl, rfl, by omega, by omega⟩
  | cons p rest ih =>
      obtain ⟨i2, j2, k2⟩ := p
      intro i1 j1 k1 i j h1 h2 h3 h4 hB
      obtain ⟨b1, b2, b3, b4, b5, b6⟩ := hB
      by_cases hm : i1 + k1 = i2 ∧ j1 + k1 = j2
      · simp only [collapseAux, if_pos hm]
        have e1 : i1 + (k1 + k2) = i2 + k2 := by omega
        have e2 : j1 + (k1 + k2) = j2 + k2 := by omega
        apply ih i1 j1 (k1 + k2) i j h1 h2 (by omega) (by omega)
        rw [e1, e2]
        exact b6
      · simp only [collapseAux, if_neg hm]
        by_cases hk : k1 ≠ 0
        · simp only [if_pos hk, List.cons_append, List.nil_append]
          refine Or.inr ⟨h1, h2, by omega, h3, h4, ?_⟩
          exact ih i2 j2 k2 (i1 + k1) (j1 + k1) b1 b2 b4 b5 b6
        · simp only [if_neg hk, List.nil_append]
          exact ih i2 j2 k2 i j (by omega) (by omega) b4 b5 b6

theorem matchAt_append (a b : List Tok) (i j k k' : Nat)
    (h1 : MatchAt a b i j k) (h2 : MatchAt a b (i + k) (j + k) k') :
    MatchAt a b i j (k + k') := by
  intro t ht
  by_cases htk : t < k
  · exact h1 t htk
  · have h := h2 (t - k) (by omega)
    have e1 : i + k + (t - k) = i + t := by omega
    have e2 : j + k + (t - k) = j + t := by omega
    rw [e1, e2] at h
    exact h

theorem collapseAux_matches (a b : List Tok) (la lb : Nat) :
    ∀ (blocks : List (Nat × Nat × Nat)) (i1 j1 k1 : Nat),
    AllMatch a b blocks → MatchAt a b i1 j1 k1 →
    AllMatch a b (collapseAux la lb i1 j1 k1 blocks) := by
  intro blocks
  induction blocks with
  | nil =>
      intro i1 j1 k1 _ hM x hx
      by_cases hk : k1 ≠ 0
      · simp only [collapseAux, if_pos hk, List.cons_append, List.nil_append] at hx
        rcases List.mem_cons.mp hx with hx | hx
        · subst hx
          exact hM
        · simp at hx
          subst hx
          exact matchAt_zero a b la lb
      · simp only [collapseAux, if_neg hk, List.nil_append] at hx
        simp at hx
        subst hx
        exact matchAt_zero a b la lb
  | cons p rest ih =>
      obtain ⟨i2, j2, k2⟩ := p
      intro i1 j1 k1 hA hM x hx
      have hA2 : AllMatch a b rest := fun y hy => hA y (List.mem_cons_of_mem _ hy)
      have hM2 : MatchAt a b i2 j2 k2 := hA (i2, j2, k2) (List.mem_cons_self _ _)
      by_cases hm : i1 + k1 = i2 ∧ j1 + k1 = j2
      · simp only [collapseAux, if_pos hm] at hx
        refine ih i1 j1 (k1 + k2) hA2 ?_ x hx
        refine matchAt_append a b i1 j1 k1 k2 hM ?_
        rw [hm.1, hm.2]
        exact hM2
      · simp only [collapseAux, if_neg hm] at hx
        by_cases hk : k1 ≠ 0
        · simp only [if_pos hk, List.cons_append, List.nil_append] at hx
          rcases List.mem_cons.mp hx with hx | hx
          · subst hx
            exact hM
          · exact ih i2 j2 k2 hA2 hM2 x hx
        · simp only [if_neg hk, List.nil_append] at hx
          exact ih i2 j2 k2 hA2 hM2 x hx

/-- The collapsed matching blocks are well-shaped and genuine. -/
theorem getMatchingBlocks_sound (a b : List Tok) :
    GBlocks a.length b.length 0 0 (getMatchingBlocks a b) ∧
    AllMatch a b (getMatchingBlocks a b) := by
  obtain ⟨hc, hm⟩ := matchingBlocksRec_sound a b _ 0 a.length 0 b.length rfl
  constructor
  · exact collapseAux_sound a.length b.length _ 0 0 0 0 0 (le_refl _) (le_refl _)
      (by omega) (by omega) hc
  · exact collapseAux_matches a b a.length b.length _ 0 0 0 hm (matchAt_zero a b 0 0)

/-- The loop body of `get_opcodes`: emit a replace/delete/insert opcode for
the gap before each block and an equal opcode for the block itself. -/
def opcodesAux : Nat → Nat → List (Nat × Nat × Nat) → List Op
  | _, _, [] => []
  | i, j, (ai, bj, size) :: rest =>
      (if i < ai ∧ j < bj then [⟨Tag.replace, i, ai, j, bj⟩]
       else if i < ai then [⟨Tag.delete, i, ai, j, bj⟩]
       else if j < bj then [⟨Tag.insert, i, ai, j, bj⟩]
       else []) ++
      ((if size ≠ 0 then [⟨Tag.equal, ai, ai + size, bj, bj + size⟩] else []) ++
        opcodesAux (ai + size) (bj + size) rest)

/-- `SequenceMatcher.get_opcodes()`. -/
def getOpcodes (a b : List Tok) : List Op := opcodesAux 0 0 (getMatchingBlocks a b)

/-- Coverage property of an opcode list between `(i, j)` and `(la, lb)`:
each opcode starts exactly at the current position on both sides, ends at
or after it, strictly advances at least one side, and the final position
is exactly `(la, lb)`.  This is the non-overlap / monotonicity / gap-free
partition invariant. -/
def chainOps (la lb : Nat) : Nat → Nat → List Op → Prop
  | i, j, [] => i = la ∧ j = lb
  | i, j, op :: rest =>
      op.i1 = i ∧ op.j1 = j ∧ i ≤ op.i2 ∧ j ≤ op.j2 ∧ (i < op.i2 ∨ j < op.j2) ∧
        chainOps la lb op.i2 op.j2 rest

theorem chainOps_cons (la lb i j : Nat) (t : Tag) (i1 i2 j1 j2 : Nat) (rest : List Op)
    (h1 : i1 = i) (h2 : j1 = j) (h3 : i ≤ i2) (h4 : j ≤ j2)
    (h5 : i < i2 ∨ j < j2) (h6 : chainOps la lb i2 j2 rest) :
    chainOps la lb i j (⟨t, i1, i2, j1, j2⟩ :: rest) :=
  ⟨h1, h2, h3, h4, h5, h6⟩

theorem chainOps_nil (la lb i j : Nat) (h1 : i = la) (h2 : j = lb) :
    chainOps la lb i j [] :=
  ⟨h1, h2⟩

theorem opcodesAux_chain (la lb : Nat) :
    ∀ (blocks : List (Nat × Nat × Nat)) (i j : Nat),
    GBlocks la lb i j blocks →
    chainOps la lb i j (opcodesAux i j blocks) := by
  intro blocks
  induction blocks with
  | nil =>
      intro i j h
      exact absurd h (by simp [GBlocks])
  | cons p rest ih =>
      obtain ⟨ai, bj, k⟩ := p
      intro i j h
      rcases h with ⟨hrest, hai, hbj, hk, hila, hjlb⟩ | ⟨h1, h2, h3, h4, h5, h6⟩
      · subst hrest
        subst hk
        simp only [opcodesAux, ne_eq, not_true_eq_false, if_false, Nat.add_zero,
          List.append_nil, List.nil_append]
        by_cases hc1 : i < ai ∧ j < bj
        · rw [if_pos hc1]
          exact chainOps_cons la lb i j Tag.replace i ai j bj []
            rfl rfl (by omega) (by omega) (Or.inl hc1.1) (chainOps_nil la lb ai bj hai hbj)
        · rw [if_neg hc1]
          by_cases hc2 : i < ai
          · rw [if_pos hc2]
            exact chainOps_cons la lb i j Tag.delete i ai j bj []
              rfl rfl (by omega) (by omega) (Or.inl hc2) (chainOps_nil la lb ai bj hai hbj)
          · by_cases hc3 : j < bj
            · rw [if_neg hc2, if_pos hc3]
              exact chainOps_cons la lb i j Tag.insert i ai j bj []
                rfl rfl (by omega) (by omega) (Or.inr hc3) (chainOps_nil la lb ai bj hai hbj)
            · rw [if_neg hc2, if_neg hc3]
              exact chainOps_nil la lb i j (by omega) (by omega)
      · have hkne : k ≠ 0 := by omega
        have htail : chainOps la lb ai bj
            (⟨Tag.equal, ai, ai + k, bj, bj + k⟩ :: opcodesAux (ai + k) (bj + k) rest) :=
          chainOps_cons la lb ai bj Tag.equal ai (ai + k) bj (bj + k) _
            rfl rfl (by omega) (by omega) (Or.inl (by omega)) (ih (ai + k) (bj + k) h6)
        simp only [opcodesAux, if_pos hkne, List.cons_append, List.nil_append,
          List.singleton_append]
        by_cases hc1 : i < ai ∧ j < bj
        · rw [if_pos hc1]
          simp only [List.singleton_append, List.cons_append, List.nil_append]
          exact chainOps_cons la lb i j Tag.replace i ai j bj _
            rfl rfl (by omega) (by omega) (Or.inl hc1.1) htail
        · rw [if_neg hc1]
          by_cases hc2 : i < ai
          · rw [if_pos hc2]
            simp only [List.singleton_append, List.cons_append, List.nil_append]
            exact chainOps_cons la lb i j Tag.delete i ai j bj _
              rfl rfl (by omega) (by omega) (Or.inl hc2) htail
          · by_cases hc3 : j < bj
            · rw [if_neg hc2, if_pos hc3]
              simp only [List.singleton_append, List.cons_append, List.nil_append]
              exact chainOps_cons la lb i j Tag.insert i ai j bj _
                rfl rfl (by omega) (by omega) (Or.inr hc3) htail
            · rw [if_neg hc2, if_neg hc3]
              simp only [List.nil_append]
              have hi : i = ai := by omega
              have hj : j = bj := by omega
              exact chainOps_cons la lb i j Tag.equal ai (ai + k) bj (bj + k) _
                hi.symm hj.symm (by omega) (by omega) (Or.inl (by omega))
                (ih (ai + k) (bj + k) h6)

/-- The opcode sequence of any two token sequences exactly covers
`[0, len a)` and `[0, len b)` without gaps or overlaps. -/
theorem getOpcodes_chain (a b : List Tok) :
    chainOps a.length b.length 0 0 (getOpcodes a b) :=
  opcodesAux_chain a.length b.length (getMatchingBlocks a b) 0 0
    (getMatchingBlocks_sound a b).1

/-! ## The alignment service built on the matcher -/

/-- The sentinel string `"(missing)"`. -/
def missingStr : List Char := ['(', 'm', 'i', 's', 's', 'i', 'n', 'g', ')']

/-- The sentinel string `"(remove)"`. -/
def removeStr : List Char := ['(', 'r', 'e', 'm', 'o', 'v', 'e', ')']

/-- The discrepancy kind `"audio_mismatch"`. -/
def audioMismatchStr : List Char :=
  ['a', 'u', 'd', 'i', 'o', '_', 'm', 'i', 's', 'm', 'a', 't', 'c', 'h']

/-- The discrepancy kind `"spelling"`. -/
def spellingStr : List Char := ['s', 'p', 'e', 'l', 'l', 'i', 'n', 'g']

/-- The known-error form `"councelor"`. -/
def councelorStr : List Char := ['c', 'o', 'u', 'n', 'c', 'e', 'l', 'o', 'r']

/-- The correction `"counselor"`. -/
def counselorStr : List Char := ['c', 'o', 'u', 'n', 's', 'e', 'l', 'o', 'r']

/-- The known-error form `"inadmissable"`. -/
def inadmissableStr : List Char :=
  ['i', 'n', 'a', 'd', 'm', 'i', 's', 's', 'a', 'b', 'l', 'e']

/-- The correction `"inadmissible"`. -/
def inadmissibleStr : List Char :=
  ['i', 'n', 'a', 'd', 'm', 'i', 's', 's', 'i', 'b', 'l', 'e']

/-- The fixed known-error table of `_grammar_spell_flags` (same pairs, in
the same order, as the corrector's substitutions). -/
def knownErrors : List (List Char × List Char) :=
  [(councelorStr, counselorStr), (inadmissableStr, inadmissibleStr)]

/-- The opcode classification loop of `_align_stub`: `line` stays 1, `col`
starts at 1 and is incremented once per emitted `ErrorItem`; replace and
delete opcodes yield confidence 0.75 with `original or "(missing)"` and
`suggested or "(remove)"` fallbacks, insert opcodes yield confidence 0.7
with original fixed to `"(missing)"`; equal opcodes yield nothing. -/
def classifyAux (tT aT : List Tok) : Nat → List Op → List ErrorItem
  | _, [] => []
  | col, op :: rest =>
      if op.tag = Tag.replace ∨ op.tag = Tag.delete then
        ⟨1, col,
          (if take80 (joinSp (sliceL tT op.i1 op.i2)) = [] then missingStr
            else take80 (joinSp (sliceL tT op.i1 op.i2))),
          (if take80 (joinSp (sliceL aT op.j1 op.j2)) = [] then removeStr
            else take80 (joinSp (sliceL aT op.j1 op.j2))),
          0.75, audioMismatchStr⟩ :: classifyAux tT aT (col + 1) rest
      else if op.tag = Tag.insert then
        ⟨1, col, missingStr, take80 (joinSp (sliceL aT op.j1 op.j2)), 0.7,
          audioMismatchStr⟩ :: classifyAux tT aT (col + 1) rest
      else classifyAux tT aT col rest

/-- The opcodes computed by `_align_stub` for two raw texts: tokenize the
lower-cased texts and run `SequenceMatcher(a=t_tokens, b=a_tokens)`. -/
def alignOps (t a : List Char) : List Op :=
  getOpcodes (tokenizeL (lowerL t)) (tokenizeL (lowerL a))

/-- `_align_stub(transcript_text, audio_text)`. -/
def alignStub (t a : List Char) : List ErrorItem :=
  classifyAux (tokenizeL (lowerL t)) (tokenizeL (lowerL a)) 1 (alignOps t a)

/-- The loop of `_grammar_spell_flags` over the known-error table. -/
def grammarFlagsAux (s : List Char) : List (List Char × List Char) → List ErrorItem
  | [] => []
  | (bad, good) :: rest =>
      (if occursL bad s then [⟨1, 1, bad, good, 0.95, spellingStr⟩] else []) ++
        grammarFlagsAux s rest

/-- `_grammar_spell_flags(transcript_text)`. -/
def grammarFlags (s : List Char) : List ErrorItem := grammarFlagsAux s knownErrors

/-- The corrector of `align_endpoint`:
`transcript_text.replace("councelor", "counselor").replace("inadmissable", "inadmissible")`. -/
def correctText (s : List Char) : List Char :=
  replaceL inadmissableStr inadmissibleStr (replaceL councelorStr counselorStr s)

/-- The full error list of `align_endpoint`:
`_align_stub(...) + _grammar_spell_flags(...)`. -/
def serviceErrors (t a : List Char) : List ErrorItem :=
  alignStub t a ++ grammarFlags t

/-- The `by_type` accumulation step `by_type[e.type] = by_type.get(e.type, 0) + 1`
on the insertion-ordered dict. -/
def byTypeBump : List (List Char × Nat) → List Char → List (List Char × Nat)
  | [], k => [(k, 1)]
  | (k', v) :: rest, k =>
      if k' = k then (k', v + 1) :: rest else (k', v) :: byTypeBump rest k

/-- The `by_type` dict of `align_endpoint`. -/
def byTypeOf (errors : List ErrorItem) : List (List Char × Nat) :=
  errors.foldl (fun m e => byTypeBump m e.type) []

/-- The `Summary(...)` constructed by `align_endpoint`: total count, counts
by type, confidence 0.8 when any discrepancy exists else 0.95, and the
fixed processing time 7.2. -/
def summarize (errors : List ErrorItem) : Summary :=
  ⟨errors.length, byTypeOf errors, if errors = [] then 0.95 else 0.8, 7.2⟩

/-! ## Derived notions used to state the claims -/

/-- Length of a longest common subsequence of two token sequences (the
reference notion the spec's "maximizes total matched tokens" appeals to). -/
def lcsLen : List Tok → List Tok → Nat
  | [], _ => 0
  | _ :: _, [] => 0
  | x :: xs, y :: ys =>
      if x = y then lcsLen xs ys + 1
      else max (lcsLen xs (y :: ys)) (lcsLen (x :: xs) ys)
termination_by a b => a.length + b.length
decreasing_by
  all_goals simp
  all_goals omega

/-- Total number of reference tokens covered by Equal opcodes. -/
def matchedTotal (ops : List Op) : Nat :=
  ops.foldr (fun op acc => if op.tag = Tag.equal then (op.i2 - op.i1) + acc else acc) 0

/-- Sum of the sizes of a matching-block list. -/
def blocksSizes : List (Nat × Nat × Nat) → Nat
  | [] => 0
  | (_, _, k) :: rest => k + blocksSizes rest

/-- The common subsequence realized by a matching-block list: the
`a`-slices of the blocks, concatenated. -/
def csOf (a : List Tok) : List (Nat × Nat × Nat) → List Tok
  | [] => []
  | (i, _, k) :: rest => (a.drop i).take k ++ csOf a rest

/-- The `ErrorItem` the spec prescribes for one non-Equal opcode at column
`col` (the comparison shape for the classifier): replace/delete carry
confidence 0.75 with the `"(missing)"`/`"(remove)"` fallbacks, insert
carries confidence 0.7 with original fixed to `"(missing)"`. -/
def specClassifyItem (tT aT : List Tok) (op : Op) (col : Nat) : ErrorItem :=
  if op.tag = Tag.insert then
    ⟨1, col, missingStr, take80 (joinSp (sliceL aT op.j1 op.j2)), 0.7, audioMismatchStr⟩
  else
    ⟨1, col,
      (if take80 (joinSp (sliceL tT op.i1 op.i2)) = [] then missingStr
        else take80 (joinSp (sliceL tT op.i1 op.i2))),
      (if take80 (joinSp (sliceL aT op.j1 op.j2)) = [] then removeStr
        else take80 (joinSp (sliceL aT op.j1 op.j2))),
      0.75, audioMismatchStr⟩

/-- The chain value of the `j2len` dynamic program when both sequences are
the same list `T` over the full index range: `Fr T r j` is the length
recorded for column `j` while processing row `r` (0 when the column is not
produced, i.e. the values differ or the row's value is autojunk-popular). -/
def Fr (T : List Tok) : Nat → Nat → Nat
  | r, j =>
      if T.getD j [] = T.getD r [] ∧ isPopular T (T.getD r []) = false ∧ j < T.length then
        (if hr : r = 0 ∨ j = 0 then 1 else Fr T (r - 1) (j - 1) + 1)
      else 0
termination_by r _ => r
decreasing_by omega

/-! ## Support lemmas for the classifier, flags, corrector and summary -/

theorem byTypeBump_sum (m : List (List Char × Nat)) (k : List Char) :
    ((byTypeBump m k).map Prod.snd).sum = (m.map Prod.snd).sum + 1 := by
  induction m with
  | nil => simp [byTypeBump]
  | cons p rest ih =>
      obtain ⟨k', v⟩ := p
      by_cases h : k' = k
      · simp only [byTypeBump, if_pos h, List.map_cons, List.sum_cons]
        omega
      · simp only [byTypeBump, if_neg h, List.map_cons, List.sum_cons, ih]
        omega

theorem byTypeFold_sum (es : List ErrorItem) :
    ∀ (m : List (List Char × Nat)),
    (((es.foldl (fun m e => byTypeBump m e.type) m)).map Prod.snd).sum =
      (m.map Prod.snd).sum + es.length := by
  induction es with
  | nil => intro m; simp
  | cons e rest ih =>
      intro m
      simp only [List.foldl_cons, List.length_cons, ih (byTypeBump m e.type), byTypeBump_sum]
      omega

theorem byTypeBump_mem (m : List (List Char × Nat)) (k k' : List Char) :
    (∃ v, (k', v) ∈ byTypeBump m k) ↔ (∃ v, (k', v) ∈ m) ∨ k' = k := by
  induction m with
  | nil =>
      simp [byTypeBump]
  | cons p rest ih =>
      obtain ⟨k0, v0⟩ := p
      by_cases h : k0 = k
      · subst h
        simp only [byTypeBump, if_pos rfl]
        constructor
        · rintro ⟨v, hv⟩
          rcases List.mem_cons.mp hv with hv | hv
          · left
            exact ⟨v0, by simp [Prod.ext_iff] at hv; simp [hv.1]⟩
          · left
            exact ⟨v, List.mem_cons_of_mem _ hv⟩
        · rintro (⟨v, hv⟩ | hk)
          · rcases List.mem_cons.mp hv with hv | hv
            · exact ⟨v0 + 1, by simp [Prod.ext_iff] at hv; simp [hv.1]⟩
            · exact ⟨v, List.mem_cons_of_mem _ hv⟩
          · subst hk
            exact ⟨v0 + 1, List.mem_cons_self _ _⟩
      · simp only [byTypeBump, if_neg h]
        constructor
        · rintro ⟨v, hv⟩
          rcases List.mem_cons.mp hv with hv | hv
          · left
            exact ⟨v0, by simp [Prod.ext_iff] at hv; simp [hv.1]⟩
          · rcases (ih).mp ⟨v, hv⟩ with hh | hh
            · left
              obtain ⟨v', hv'⟩ := hh
              exact ⟨v', List.mem_cons_of_mem _ hv'⟩
            · right
              exact hh
        · rintro (⟨v, hv⟩ | hk)
          · rcases List.mem_cons.mp hv with hv | hv
            · exact ⟨v0, by simp [Prod.ext_iff] at hv; simp [hv.1]⟩
            · obtain ⟨v', hv'⟩ := (ih).mpr (Or.inl ⟨v, hv⟩)
              exact ⟨v', List.mem_cons_of_mem _ hv'⟩
          · obtain ⟨v', hv'⟩ := (ih).mpr (Or.inr hk)
            exact ⟨v', List.mem_cons_of_mem _ hv'⟩

theorem byTypeFold_mem (es : List ErrorItem) :
    ∀ (m : List (List Char × Nat)) (k' : List Char),
    (∃ v, (k', v) ∈ es.foldl (fun m e => byTypeBump m e.type) m) ↔
      (∃ v, (k', v) ∈ m) ∨ k' ∈ es.map ErrorItem.type := by
  induction es with
  | nil => intro m k'; simp
  | cons e rest ih =>
      intro m k'
      simp only [List.foldl_cons, List.map_cons, List.mem_cons]
      rw [ih (byTypeBump m e.type) k', byTypeBump_mem]
      tauto

theorem replace_noOccur (p r : List Char) :
    ∀ s, occursL p s = false → replaceL p r s = s := by
  intro s
  induction s with
  | nil => intro _; rw [replaceL]
  | cons c s ih =>
      intro h
      rw [occursL, Bool.or_eq_false_iff] at h
      rw [replaceL, if_neg (by simp [h.1]), ih h.2]

theorem classifyAux_spec (tT aT : List Tok) :
    ∀ (ops : List Op) (col : Nat),
    classifyAux tT aT col ops =
      List.zipWith (specClassifyItem tT aT)
        (ops.filter (fun op => decide (op.tag ≠ Tag.equal)))
        (List.range' col (ops.filter (fun op => decide (op.tag ≠ Tag.equal))).length) := by
  intro ops
  induction ops with
  | nil => intro col; simp [classifyAux]
  | cons op rest ih =>
      intro col
      by_cases h1 : op.tag = Tag.replace ∨ op.tag = Tag.delete
      · have hne : (decide (op.tag ≠ Tag.equal)) = true := by
          rcases h1 with h | h <;> simp [h]
        have hni : ¬op.tag = Tag.insert := by
          rcases h1 with h | h <;> simp [h]
        simp only [List.filter_cons, hne, if_true, List.length_cons, List.range'_succ,
          List.zipWith_cons_cons]
        rw [classifyAux, if_pos h1, ih (col + 1)]
        simp [specClassifyItem, hni]
      · by_cases h2 : op.tag = Tag.insert
        · have hne : (decide (op.tag ≠ Tag.equal)) = true := by simp [h2]
          simp only [List.filter_cons, hne, if_true, List.length_cons, List.range'_succ,
            List.zipWith_cons_cons]
          rw [classifyAux, if_neg h1, if_pos h2, ih (col + 1)]
          simp [specClassifyItem, h2]
        · have heq : op.tag = Tag.equal := by
            cases htag : op.tag <;> simp_all
          have hne : (decide (op.tag ≠ Tag.equal)) = false := by simp [heq]
          simp only [List.filter_cons, hne, if_false, Bool.false_eq_true]
          rw [classifyAux, if_neg h1, if_neg h2, ih col]

/-! ## String lemmas for the corrector and the lexical flags -/

theorem isPreL_exists (p : List Char) :
    ∀ s, isPreL p s = true ↔ ∃ t, s = p ++ t := by
  induction p with
  | nil =>
      intro s
      simp [isPreL]
  | cons a p ih =>
      intro s
      cases s with
      | nil =>
          simp [isPreL]
      | cons b s' =>
          simp only [isPreL, Bool.and_eq_true, decide_eq_true_eq, ih s']
          constructor
          · rintro ⟨rfl, t, rfl⟩
            exact ⟨t, rfl⟩
          · rintro ⟨t, ht⟩
            simp only [List.cons_append, List.cons.injEq] at ht
            exact ⟨ht.1.symm, t, ht.2⟩

theorem isPre_take (w r : List Char) (h : isPreL w r = true) :
    r.take w.length = w := by
  obtain ⟨t, rfl⟩ := (isPreL_exists w r).mp h
  simp

theorem isPre_occurs (q : List Char) :
    ∀ s, isPreL q s = true → occursL q s = true := by
  intro s
  cases s with
  | nil =>
      intro h
      simpa [occursL] using h
  | cons c s' =>
      intro h
      simp [occursL, h]

theorem occurs_drop (q : List Char) :
    ∀ s k, occursL q (s.drop k) = true → occursL q s = true := by
  intro s
  induction s with
  | nil =>
      intro k
      simp
  | cons c s' ih =>
      intro k
      cases k with
      | zero => intro h; exact h
      | succ k' =>
          intro h
          have := ih k' h
          simp [occursL, this]

theorem isPre_append_cases (q : List Char) :
    ∀ (X Y : List Char), isPreL q (X ++ Y) = true →
    (q.length ≤ X.length ∧ isPreL q X = true) ∨
    (X.length < q.length ∧ q.take X.length = X ∧ isPreL (q.drop X.length) Y = true) := by
  intro X
  induction X generalizing q with
  | nil =>
      intro Y h
      cases q with
      | nil => exact Or.inl ⟨by omega, rfl⟩
      | cons a q' =>
          exact Or.inr ⟨by simp, by simp, h⟩
  | cons x X' ih =>
      intro Y h
      cases q with
      | nil => exact Or.inl ⟨by simp, rfl⟩
      | cons a q' =>
          simp only [List.cons_append, isPreL, Bool.and_eq_true, decide_eq_true_eq] at h
          obtain ⟨rfl, h2⟩ := h
          rcases ih q' Y h2 with ⟨hl, hp⟩ | ⟨hl, ht, hp⟩
          · exact Or.inl ⟨by simp; omega, by simp [isPreL, hp]⟩
          · refine Or.inr ⟨by simp; omega, ?_, ?_⟩
            · simp [List.take_cons, ht]
            · simpa using hp

theorem occurs_append_cases (q : List Char) (hq : q ≠ []) :
    ∀ (X Y : List Char), occursL q (X ++ Y) = true →
    occursL q X = true ∨ occursL q Y = true ∨
    (∃ t, 0 < t ∧ t < q.length ∧ t ≤ X.length ∧
      X.drop (X.length - t) = q.take t ∧ isPreL (q.drop t) Y = true) := by
  intro X
  induction X with
  | nil =>
      intro Y h
      exact Or.inr (Or.inl (by simpa using h))
  | cons c X' ih =>
      intro Y h
      rw [List.cons_append, occursL, Bool.or_eq_true] at h
      rcases h with h | h
      · rcases isPre_append_cases q (c :: X') Y (by simpa using h) with ⟨hl, hp⟩ | ⟨hl, ht, hp⟩
        · exact Or.inl (isPre_occurs q (c :: X') hp)
        · refine Or.inr (Or.inr ⟨(c :: X').length, by simp, hl, le_refl _, ?_, hp⟩)
          simp only [Nat.sub_self, List.drop_zero]
          exact ht.symm
      · rcases ih Y h with h | h | ⟨t, ht0, htq, htX, heq, hpre⟩
        · exact Or.inl (by simp [occursL, h])
        · exact Or.inr (Or.inl h)
        · refine Or.inr (Or.inr ⟨t, ht0, htq, by simp; omega, ?_, hpre⟩)
          have e1 : (c :: X').length - t = (X'.length - t) + 1 := by simp; omega
          rw [e1, List.drop_succ_cons, heq]

/-- If a nonempty suffix of `q` is a prefix of the replaced string, it was
already a prefix of the original string (side conditions: `q` does not occur
in `r`, is no longer than `r`, and no nonempty proper suffix of `q` is a
prefix of `r`). -/
theorem pre_replace (q p r : List Char) (hqr : q.length ≤ r.length)
    (hocc : occursL q r = false)
    (hA : ∀ t, t < q.length → (0 < t → q.drop t ≠ r.take (q.length - t))) :
    ∀ (n : Nat), ∀ (s : List Char), s.length = n →
    ∀ (w : List Char) (t : Nat), t < q.length → w = q.drop t → w ≠ [] →
    isPreL w (replaceL p r s) = true → isPreL w s = true := by
  intro n
  induction n using Nat.strong_induction_on with
  | _ n ih =>
      intro s hs w t htq hw hwne hpre
      cases s with
      | nil =>
          rw [replaceL] at hpre
          cases w with
          | nil => exact absurd rfl hwne
          | cons d w' => simp [isPreL] at hpre
      | cons c s' =>
          by_cases hrep : p ≠ [] ∧ isPreL p (c :: s') = true
          · rw [replaceL, if_pos hrep] at hpre
            rcases isPre_append_cases w r (replaceL p r (s'.drop (p.length - 1))) hpre with
              ⟨hl, hp⟩ | ⟨hl, _, _⟩
            · by_cases ht0 : t = 0
              · subst ht0
                simp only [List.drop_zero] at hw
                subst hw
                exact absurd (isPre_occurs w r hp) (by simp [hocc])
              · exfalso
                apply hA t htq (by omega)
                rw [← hw]
                have htake := isPre_take w r hp
                have hwl : w.length = q.length - t := by rw [hw]; simp
                rw [hwl] at htake
                exact htake.symm
            · have hwl : w.length ≤ q.length := by rw [hw]; simp
              omega
          · rw [replaceL, if_neg hrep] at hpre
            cases w with
            | nil => exact absurd rfl hwne
            | cons d w' =>
                simp only [isPreL, Bool.and_eq_true, decide_eq_true_eq] at hpre
                obtain ⟨rfl, hpre2⟩ := hpre
                by_cases hw2 : w' = []
                · subst hw2
                  simp [isPreL]
                · have hw3 : w' = q.drop (t + 1) := by
                    have htail : (q.drop t).tail = q.drop (t + 1) := by
                      rw [List.tail_drop]
                    rw [← htail, ← hw]
                    rfl
                  have htq2 : t + 1 < q.length := by
                    by_contra hcon
                    exact hw2 (by rw [hw3]; exact List.drop_eq_nil_of_le (by omega))
                  have hlen : s'.length < n := by
                    simp only [List.length_cons] at hs
                    omega
                  have := ih s'.length hlen s' rfl w' (t + 1) htq2 hw3 hw2 hpre2
                  simp [isPreL, this]

/-- Greedy replacement of `p` by `r` leaves no occurrence of `p`, provided
`p` does not occur in `r`, `p` is no longer than `r`, no nonempty proper
suffix of `p` is a prefix of `r`, and no nonempty proper prefix of `p` is a
suffix of `r`. -/
theorem replace_self_free (p r : List Char) (hp : p ≠ [])
    (hpr : p.length ≤ r.length)
    (hocc : occursL p r = false)
    (hA : ∀ t, t < p.length → (0 < t → p.drop t ≠ r.take (p.length - t)))
    (hB : ∀ t, t < p.length → (0 < t → t ≤ r.length → p.take t ≠ r.drop (r.length - t))) :
    ∀ (n : Nat), ∀ (s : List Char), s.length = n →
    occursL p (replaceL p r s) = false := by
  intro n
  induction n using Nat.strong_induction_on with
  | _ n ih =>
      intro s hs
      cases s with
      | nil =>
          rw [replaceL]
          cases p with
          | nil => exact absurd rfl hp
          | cons a p' => simp [occursL, isPreL]
      | cons c s' =>
          by_cases hrep : p ≠ [] ∧ isPreL p (c :: s') = true
          · rw [replaceL, if_pos hrep]
            by_contra hcon
            simp only [Bool.not_eq_false] at hcon
            rcases occurs_append_cases p hp r _ hcon with h | h | ⟨t, ht0, htq, htr, heq, _⟩
            · exact absurd h (by simp [hocc])
            · have hlen : (s'.drop (p.length - 1)).length < n := by
                simp only [List.length_cons] at hs
                simp only [List.length_drop]
                omega
              exact absurd h (by simp [ih _ hlen (s'.drop (p.length - 1)) rfl])
            · exact hB t htq ht0 htr heq.symm
          · rw [replaceL, if_neg hrep]
            have hfree : occursL p (replaceL p r s') = false := by
              have hlen : s'.length < n := by
                simp only [List.length_cons] at hs
                omega
              exact ih s'.length hlen s' rfl
            rw [occursL, Bool.or_eq_false_iff]
            refine ⟨?_, hfree⟩
            by_contra hcon
            simp only [Bool.not_eq_false] at hcon
            cases hpp : p with
            | nil => exact hp hpp
            | cons d p' =>
                subst hpp
                simp only [isPreL, Bool.and_eq_true, decide_eq_true_eq] at hcon
                obtain ⟨rfl, hcon2⟩ := hcon
                by_cases hp2 : p' = []
                · subst hp2
                  exact hrep ⟨hp, by simp [isPreL]⟩
                · have hplen : 0 < p'.length := List.length_pos.mpr hp2
                  have hpre := pre_replace (d :: p') (d :: p') r hpr hocc hA s'.length s' rfl
                    p' 1 (by simp; omega) (by simp) hp2 hcon2
                  exact hrep ⟨hp, by simp [isPreL, hpre]⟩

/-- Greedy replacement of `p` by `r` introduces no occurrence of another
pattern `q` absent from the original string, provided `q` does not occur in
`r`, `q` is no longer than `r`, no nonempty proper suffix of `q` is a prefix
of `r`, and no nonempty proper prefix of `q` is a suffix of `r`. -/
theorem replace_other_free (q p r : List Char) (hq : q ≠ [])
    (hqr : q.length ≤ r.length)
    (hocc : occursL q r = false)
    (hA : ∀ t, t < q.length → (0 < t → q.drop t ≠ r.take (q.length - t)))
    (hB : ∀ t, t < q.length → (0 < t → t ≤ r.length → q.take t ≠ r.drop (r.length - t))) :
    ∀ (n : Nat), ∀ (s : List Char), s.length = n →
    occursL q s = false → occursL q (replaceL p r s) = false := by
  intro n
  induction n using Nat.strong_induction_on with
  | _ n ih =>
      intro s hs hsfree
      cases s with
      | nil =>
          rw [replaceL]
          exact hsfree
      | cons c s' =>
          have hfree2 : occursL q s' = false := by
            rw [occursL, Bool.or_eq_false_iff] at hsfree
            exact hsfree.2
          by_cases hrep : p ≠ [] ∧ isPreL p (c :: s') = true
          · rw [replaceL, if_pos hrep]
            by_contra hcon
            simp only [Bool.not_eq_false] at hcon
            rcases occurs_append_cases q hq r _ hcon with h | h | ⟨t, ht0, htq, htr, heq, _⟩
            · exact absurd h (by simp [hocc])
            · have hdropfree : occursL q (s'.drop (p.length - 1)) = false := by
                by_contra hdc
                simp only [Bool.not_eq_false] at hdc
                exact absurd (occurs_drop q s' (p.length - 1) hdc) (by simp [hfree2])
              have hlen : (s'.drop (p.length - 1)).length < n := by
                simp only [List.length_cons] at hs
                simp only [List.length_drop]
                omega
              exact absurd h
                (by simp [ih _ hlen (s'.drop (p.length - 1)) rfl hdropfree])
            · exact hB t htq ht0 htr heq.symm
          · rw [replaceL, if_neg hrep]
            rw [occursL, Bool.or_eq_false_iff]
            refine ⟨?_, ih s'.length (by simp only [List.length_cons] at hs; omega) s' rfl hfree2⟩
            by_contra hcon
            simp only [Bool.not_eq_false] at hcon
            cases hqq : q with
            | nil => exact hq hqq
            | cons d q' =>
                subst hqq
                simp only [isPreL, Bool.and_eq_true, decide_eq_true_eq] at hcon
                obtain ⟨rfl, hcon2⟩ := hcon
                by_cases hq2 : q' = []
                · subst hq2
                  rw [occursL, Bool.or_eq_false_iff] at hsfree
                  exact absurd hsfree.1 (by simp [isPreL])
                · have hqlen : 0 < q'.length := List.length_pos.mpr hq2
                  have hpre := pre_replace (d :: q') p r hqr hocc hA s'.length s' rfl
                    q' 1 (by simp; omega) (by simp) hq2 hcon2
                  rw [occursL, Bool.or_eq_false_iff] at hsfree
                  exact absurd hsfree.1 (by simp [isPreL, hpre])

theorem grammarFlags_split (s : List Char) :
    grammarFlags s =
      (if occursL councelorStr s = true then
        [⟨1, 1, councelorStr, counselorStr, 0.95, spellingStr⟩] else []) ++
      (if occursL inadmissableStr s = true then
        [⟨1, 1, inadmissableStr, inadmissibleStr, 0.95, spellingStr⟩] else []) := by
  simp [grammarFlags, grammarFlagsAux, knownErrors]

/-- After the two substitutions of the corrector, neither known-error form
occurs in the corrected text. -/
theorem correct_free (s : List Char) :
    occursL councelorStr (correctText s) = false ∧
    occursL inadmissableStr (correctText s) = false := by
  have h1 : occursL councelorStr (replaceL councelorStr counselorStr s) = false :=
    replace_self_free councelorStr counselorStr (by decide) (by decide) (by decide)
      (by decide) (by decide) _ _ rfl
  constructor
  · exact replace_other_free councelorStr inadmissableStr inadmissibleStr (by decide)
      (by decide) (by decide) (by decide) (by decide) _ _ rfl h1
  · exact replace_self_free inadmissableStr inadmissibleStr (by decide) (by decide)
      (by decide) (by decide) (by decide) _ _ rfl

/-! ## Alignment against an empty side -/

theorem b2j_nil (v : Tok) : b2j [] v = [] := by
  simp [b2j, positionsOf, positionsAux]

theorem outerLoop_nil_b (a : List Tok) (blo bhi : Nat) :
    ∀ (cnt i : Nat) (m : List (Nat × Nat)) (best : Nat × Nat × Nat),
    outerLoop (b2j []) blo bhi a i cnt m best = best := by
  intro cnt
  induction cnt with
  | zero => intro i m best; rfl
  | succ c ih =>
      intro i m best
      simp only [outerLoop, b2j_nil, innerLoop]
      exact ih (i + 1) [] best

theorem flm_nil_a (b : List Tok) (bhi : Nat) :
    findLongestMatch [] b 0 0 0 bhi = (0, 0, 0) := by
  unfold findLongestMatch
  have hcore : outerLoop (b2j b) 0 bhi [] 0 (0 - 0) [] (0, 0, 0) = (0, 0, 0) := rfl
  rw [hcore, extBack]
  simp only [Nat.lt_irrefl, false_and, if_false]
  rw [extFwd]
  simp only [Nat.add_zero, Nat.lt_irrefl, false_and, if_false]
  rw [extBackJunk_id, extFwdJunk_id]

theorem flm_nil_b (a : List Tok) (ahi : Nat) :
    findLongestMatch a [] 0 ahi 0 0 = (0, 0, 0) := by
  unfold findLongestMatch
  rw [outerLoop_nil_b a 0 0 (ahi - 0) 0 [] (0, 0, 0), extBack]
  simp only [Nat.lt_irrefl, false_and, and_false, if_false]
  rw [extFwd]
  simp only [Nat.add_zero, Nat.lt_irrefl, false_and, and_false, if_false]
  rw [extBackJunk_id, extFwdJunk_id]

theorem getOpcodes_nil_a (b : List Tok) (hb : b ≠ []) :
    getOpcodes [] b = [⟨Tag.insert, 0, 0, 0, b.length⟩] := by
  have hblocks : matchingBlocksRec [] b 0 0 0 b.length = [] := by
    rw [matchingBlocksRec]
    simp [flm_nil_a]
  have hlb : 0 < b.length := List.length_pos.mpr hb
  unfold getOpcodes getMatchingBlocks
  rw [List.length_nil, hblocks]
  show opcodesAux 0 0 (collapseAux 0 b.length 0 0 0 []) = _
  simp only [collapseAux, ne_eq, not_true_eq_false, if_false, List.nil_append]
  simp only [opcodesAux, Nat.lt_irrefl, false_and, if_false, if_neg (by omega : ¬(0 < 0)),
    if_pos hlb, ne_eq, not_true_eq_false, Nat.add_zero, List.append_nil, List.nil_append]

theorem getOpcodes_nil_b (a : List Tok) (ha : a ≠ []) :
    getOpcodes a [] = [⟨Tag.delete, 0, a.length, 0, 0⟩] := by
  have hblocks : matchingBlocksRec a [] 0 a.length 0 0 = [] := by
    rw [matchingBlocksRec]
    simp [flm_nil_b]
  have hla : 0 < a.length := List.length_pos.mpr ha
  unfold getOpcodes getMatchingBlocks
  rw [List.length_nil, hblocks]
  show opcodesAux 0 0 (collapseAux a.length 0 0 0 0 []) = _
  simp only [collapseAux, ne_eq, not_true_eq_false, if_false, List.nil_append]
  simp only [opcodesAux, Nat.lt_irrefl, and_false, false_and, if_false, if_pos hla,
    if_neg (by omega : ¬(0 < 0)), ne_eq, not_true_eq_false, Nat.add_zero,
    List.append_nil, List.nil_append]

theorem getOpcodes_nil_nil : getOpcodes ([] : List Tok) [] = [] := by
  have hblocks : matchingBlocksRec ([] : List Tok) [] 0 0 0 0 = [] := by
    rw [matchingBlocksRec]
    simp [flm_nil_a]
  unfold getOpcodes getMatchingBlocks
  rw [List.length_nil, hblocks]
  show opcodesAux 0 0 (collapseAux 0 0 0 0 0 []) = _
  simp [collapseAux, opcodesAux]

/-! ## Longest-common-subsequence bounds -/

theorem lcs_mono_bound :
    ∀ (n : Nat) (a b : List Tok), a.length + b.length ≤ n →
    (∀ x, lcsLen a b ≤ lcsLen (x :: a) b) ∧
    (∀ y, lcsLen a b ≤ lcsLen a (y :: b)) ∧
    (∀ x, lcsLen (x :: a) b ≤ lcsLen a b + 1) ∧
    (∀ y, lcsLen a (y :: b) ≤ lcsLen a b + 1) := by
  intro n
  induction n using Nat.strong_induction_on with
  | _ n ih =>
      intro a b hn
      have IH : ∀ (a' b' : List Tok), a'.length + b'.length < n →
          (∀ x, lcsLen a' b' ≤ lcsLen (x :: a') b') ∧
          (∀ y, lcsLen a' b' ≤ lcsLen a' (y :: b')) ∧
          (∀ x, lcsLen (x :: a') b' ≤ lcsLen a' b' + 1) ∧
          (∀ y, lcsLen a' (y :: b') ≤ lcsLen a' b' + 1) :=
        fun a' b' h => ih (a'.length + b'.length) (by omega) a' b' (le_refl _)
      have hR1 : ∀ x, lcsLen (x :: a) b ≤ lcsLen a b + 1 := by
        intro x
        cases b with
        | nil =>
            cases a <;> simp [lcsLen]
        | cons y b' =>
            have hm : a.length + b'.length < n := by
              simp only [List.length_cons] at hn ⊢
              omega
            rw [lcsLen]
            by_cases hxy : x = y
            · rw [if_pos hxy]
              have := (IH a b' hm).2.1 y
              omega
            · rw [if_neg hxy]
              have h1 : lcsLen (x :: a) b' ≤ lcsLen a b' + 1 := (IH a b' hm).2.2.1 x
              have h2 : lcsLen a b' ≤ lcsLen a (y :: b') := (IH a b' hm).2.1 y
              have h3 : lcsLen a (y :: b') ≤ lcsLen a (y :: b') + 1 := by omega
              exact max_le h3 (by omega)
      have hR2 : ∀ y, lcsLen a (y :: b) ≤ lcsLen a b + 1 := by
        intro y
        cases a with
        | nil => simp [lcsLen]
        | cons x a' =>
            have hm : a'.length + b.length < n := by
              simp only [List.length_cons] at hn ⊢
              omega
            rw [lcsLen]
            by_cases hxy : x = y
            · rw [if_pos hxy]
              subst hxy
              cases b with
              | nil =>
                  have := (IH a' [] (by simp only [List.length_cons] at hn ⊢; omega)).1 x
                  simp only [lcsLen] at this ⊢
                  omega
              | cons z b' =>
                  have := (IH a' (z :: b') hm).1 x
                  omega
            · rw [if_neg hxy]
              have h1 : lcsLen a' (y :: b) ≤ lcsLen a' b + 1 := (IH a' b hm).2.2.2 y
              have h2 : lcsLen a' b ≤ lcsLen (x :: a') b := (IH a' b hm).1 x
              exact max_le (by omega) (by omega)
      refine ⟨?_, ?_, hR1, hR2⟩
      · intro x
        cases b with
        | nil =>
            cases a <;> simp [lcsLen]
        | cons y b' =>
            have hm : a.length + b'.length < n := by
              simp only [List.length_cons] at hn ⊢
              omega
            conv_rhs => rw [lcsLen]
            by_cases hxy : x = y
            · rw [if_pos hxy]
              have := (IH a b' hm).2.2.2 y
              omega
            · rw [if_neg hxy]
              exact le_trans (le_max_left _ _) (le_refl _)
      · intro y
        cases a with
        | nil => simp [lcsLen]
        | cons x a' =>
            have hm : a'.length + b.length < n := by
              simp only [List.length_cons] at hn ⊢
              omega
            conv_rhs => rw [lcsLen]
            by_cases hxy : x = y
            · rw [if_pos hxy]
              have := (IH a' b hm).2.2.1 x
              omega
            · rw [if_neg hxy]
              exact le_trans (le_max_right _ _) (le_refl _)

theorem lcs_ge_sub :
    ∀ (n : Nat) (a b cs : List Tok), a.length + b.length ≤ n →
    cs.Sublist a → cs.Sublist b → cs.length ≤ lcsLen a b := by
  intro n
  induction n using Nat.strong_induction_on with
  | _ n ih =>
      intro a b cs hn hsa hsb
      cases a with
      | nil =>
          have hcs := List.sublist_nil.mp hsa
          subst hcs
          simp
      | cons x a' =>
          cases b with
          | nil =>
              have hcs := List.sublist_nil.mp hsb
              subst hcs
              simp [lcsLen]
          | cons y b' =>
              have Ha : cs.Sublist a' ∨ ∃ cs1, cs = x :: cs1 ∧ cs1.Sublist a' := by
                cases hsa with
                | cons _ h => exact Or.inl h
                | cons₂ _ h => exact Or.inr ⟨_, rfl, h⟩
              have Hb : cs.Sublist b' ∨ ∃ cs2, cs = y :: cs2 ∧ cs2.Sublist b' := by
                cases hsb with
                | cons _ h => exact Or.inl h
                | cons₂ _ h => exact Or.inr ⟨_, rfl, h⟩
              have hmono := lcs_mono_bound (a'.length + b'.length) a' b' (le_refl _)
              simp only [List.length_cons] at hn
              by_cases hxy : x = y
              · subst hxy
                rw [lcsLen, if_pos rfl]
                rcases Ha with ha | ⟨cs1, rfl, ha⟩
                · rcases Hb with hb | ⟨cs2, hceq, hb⟩
                  · have := ih (a'.length + b'.length) (by omega) a' b' cs (le_refl _) ha hb
                    omega
                  · have h1 := ih (a'.length + (x :: b').length) (by simp; omega)
                      a' (x :: b') cs (le_refl _) ha hsb
                    have h2 := hmono.2.2.2 x
                    omega
                · rcases Hb with hb | ⟨cs2, hceq, hb⟩
                  · have h1 := ih ((x :: a').length + b'.length) (by simp; omega)
                      (x :: a') b' (x :: cs1) (le_refl _) hsa hb
                    have h2 := hmono.2.2.1 x
                    simp only [List.length_cons] at h1 ⊢
                    omega
                  · have hceq2 : cs1 = cs2 := by
                      simpa using hceq
                    subst hceq2
                    have := ih (a'.length + b'.length) (by omega) a' b' cs1 (le_refl _) ha hb
                    simp only [List.length_cons]
                    omega
              · rw [lcsLen, if_neg hxy]
                rcases Ha with ha | ⟨cs1, rfl, ha⟩
                · have h1 := ih (a'.length + (y :: b').length) (by simp; omega)
                    a' (y :: b') cs (le_refl _) ha hsb
                  exact le_trans h1 (le_max_left _ _)
                · rcases Hb with hb | ⟨cs2, hceq, hb⟩
                  · have h1 := ih ((x :: a').length + b'.length) (by simp; omega)
                      (x :: a') b' (x :: cs1) (le_refl _) hsa hb
                    exact le_trans h1 (le_max_right _ _)
                  · exact absurd (by simpa using hceq : x = y ∧ cs1 = cs2).1 hxy

theorem matchAt_take_eq (a b : List Tok) (i j k : Nat) (hm : MatchAt a b i j k)
    (hia : i + k ≤ a.length) (hjb : j + k ≤ b.length) :
    (a.drop i).take k = (b.drop j).take k := by
  apply List.ext_getElem
  · simp
    omega
  · intro t h1 h2
    have ht : t < k := by
      simp at h1
      omega
    have e1 : ((a.drop i).take k)[t] = a.get ⟨i + t, by omega⟩ := by
      rw [List.getElem_take, List.getElem_drop, List.get_eq_getElem]
    have e2 : ((b.drop j).take k)[t] = b.get ⟨j + t, by omega⟩ := by
      rw [List.getElem_take, List.getElem_drop, List.get_eq_getElem]
    rw [e1, e2]
    have := hm t ht
    rwa [List.getD_eq_getElem a [] (by omega), List.getD_eq_getElem b [] (by omega)] at this

theorem csOf_sub (a b : List Tok) :
    ∀ (blocks : List (Nat × Nat × Nat)) (i j : Nat),
    GBlocks a.length b.length i j blocks → AllMatch a b blocks →
    (csOf a blocks).Sublist (a.drop i) ∧ (csOf a blocks).Sublist (b.drop j) ∧
    (csOf a blocks).length = blocksSizes blocks := by
  intro blocks
  induction blocks with
  | nil =>
      intro i j h _
      exact absurd h (by simp [GBlocks])
  | cons p rest ih =>
      obtain ⟨ai, bj, k⟩ := p
      intro i j h hM
      have hMrest : AllMatch a b rest := fun x hx => hM x (List.mem_cons_of_mem _ hx)
      have hMhead : MatchAt a b ai bj k := hM (ai, bj, k) (List.mem_cons_self _ _)
      rcases h with ⟨hrest, hai, hbj, hk, hila, hjlb⟩ | ⟨h1, h2, h3, h4, h5, h6⟩
      · subst hrest
        subst hk
        simp only [csOf, List.take_zero, List.nil_append, blocksSizes]
        exact ⟨List.nil_sublist _, List.nil_sublist _, by simp⟩
      · obtain ⟨ihA, ihB, ihL⟩ := ih (ai + k) (bj + k) h6 hMrest
        have hsliceEq : (a.drop ai).take k = (b.drop bj).take k :=
          matchAt_take_eq a b ai bj k hMhead h4 h5
        have hstepA : ((a.drop ai).take k ++ csOf a rest).Sublist (a.drop ai) := by
          have hdd : (a.drop ai).drop k = a.drop (ai + k) := by
            rw [List.drop_drop]
          have hsub2 : (csOf a rest).Sublist ((a.drop ai).drop k) := by
            rw [hdd]
            exact ihA
          have happ := hsub2.append_left ((a.drop ai).take k)
          rwa [List.take_append_drop] at happ
        have hstepB : ((b.drop bj).take k ++ csOf a rest).Sublist (b.drop bj) := by
          have hdd : (b.drop bj).drop k = b.drop (bj + k) := by
            rw [List.drop_drop]
          have hsub2 : (csOf a rest).Sublist ((b.drop bj).drop k) := by
            rw [hdd]
            exact ihB
          have happ := hsub2.append_left ((b.drop bj).take k)
          rwa [List.take_append_drop] at happ
        have hchainA : (a.drop ai).Sublist (a.drop i) := by
          have he : a.drop ai = (a.drop i).drop (ai - i) := by
            have e2 : i + (ai - i) = ai := by omega
            rw [List.drop_drop, e2]
          rw [he]
          exact List.drop_sublist _ _
        have hchainB : (b.drop bj).Sublist (b.drop j) := by
          have he : b.drop bj = (b.drop j).drop (bj - j) := by
            have e2 : j + (bj - j) = bj := by omega
            rw [List.drop_drop, e2]
          rw [he]
          exact List.drop_sublist _ _
        refine ⟨?_, ?_, ?_⟩
        · exact (hstepA.trans hchainA)
        · show ((a.drop ai).take k ++ csOf a rest).Sublist (b.drop j)
          rw [hsliceEq]
          exact hstepB.trans hchainB
        · simp only [csOf, List.length_append, List.length_take, List.length_drop,
            blocksSizes, ihL]
          omega

theorem matchedTotal_append (xs ys : List Op) :
    matchedTotal (xs ++ ys) = matchedTotal xs + matchedTotal ys := by
  induction xs with
  | nil => simp [matchedTotal]
  | cons op rest ih =>
      simp only [matchedTotal, List.cons_append, List.foldr_cons] at ih ⊢
      by_cases h : op.tag = Tag.equal
      · rw [if_pos h, if_pos h, ih]
        omega
      · rw [if_neg h, if_neg h, ih]

theorem opcodesAux_matched :
    ∀ (blocks : List (Nat × Nat × Nat)) (i j : Nat),
    matchedTotal (opcodesAux i j blocks) = blocksSizes blocks := by
  intro blocks
  induction blocks with
  | nil => intro i j; rfl
  | cons p rest ih =>
      obtain ⟨ai, bj, k⟩ := p
      intro i j
      rw [opcodesAux, matchedTotal_append, matchedTotal_append, ih]
      have htag : matchedTotal
          (if i < ai ∧ j < bj then [⟨Tag.replace, i, ai, j, bj⟩]
            else if i < ai then [⟨Tag.delete, i, ai, j, bj⟩]
            else if j < bj then [⟨Tag.insert, i, ai, j, bj⟩]
            else []) = 0 := by
        split
        · rfl
        · split
          · rfl
          · split
            · rfl
            · rfl
      have heq : matchedTotal
          (if k ≠ 0 then [⟨Tag.equal, ai, ai + k, bj, bj + k⟩] else []) = k := by
        by_cases hk : k = 0
        · simp [hk, matchedTotal]
        · have e1 : ai + k - ai + 0 = k := by omega
          simp [if_pos hk, matchedTotal, e1]
      rw [htag, heq]
      simp [blocksSizes]

/-- The total size of the Equal opcodes of any alignment is at most the
longest-common-subsequence length of the two token sequences. -/
theorem matched_le_lcs (a b : List Tok) :
    matchedTotal (getOpcodes a b) ≤ lcsLen a b := by
  obtain ⟨hG, hM⟩ := getMatchingBlocks_sound a b
  obtain ⟨hsubA, hsubB, hlen⟩ := csOf_sub a b (getMatchingBlocks a b) 0 0 hG hM
  simp only [List.drop_zero] at hsubA hsubB
  have h1 : matchedTotal (getOpcodes a b) = blocksSizes (getMatchingBlocks a b) :=
    opcodesAux_matched (getMatchingBlocks a b) 0 0
  rw [h1, ← hlen]
  exact lcs_ge_sub (a.length + b.length) a b (csOf a (getMatchingBlocks a b))
    (le_refl _) hsubA hsubB

/-! ## Alignment of a sequence with itself -/

theorem positionsAux_complete (v : Tok) :
    ∀ (ts : List Tok) (o j : Nat),
    j < ts.length → ts.getD j [] = v → (o + j) ∈ positionsAux v ts o := by
  intro ts
  induction ts with
  | nil => intro o j hj _; simp at hj
  | cons t ts ih =>
      intro o j hj hv
      cases j with
      | zero =>
          simp only [List.getD_cons_zero] at hv
          subst hv
          simp [positionsAux]
      | succ j' =>
          have hmem := ih (o + 1) j' (by simpa using hj) (by simpa using hv)
          simp only [positionsAux, List.mem_append]
          right
          have e1 : o + (j' + 1) = o + 1 + j' := by omega
          rw [e1]
          exact hmem

theorem positionsOf_complete (b : List Tok) (v : Tok) (j : Nat)
    (hj : j < b.length) (hv : b.getD j [] = v) : j ∈ positionsOf b v := by
  have h := positionsAux_complete v b 0 j hj hv
  simpa using h

theorem positionsAux_sorted (v : Tok) :
    ∀ (ts : List Tok) (o : Nat), (positionsAux v ts o).Pairwise (· < ·) := by
  intro ts
  induction ts with
  | nil => intro o; simp [positionsAux]
  | cons t ts ih =>
      intro o
      simp only [positionsAux]
      rw [List.pairwise_append]
      refine ⟨?_, ih (o + 1), ?_⟩
      · split <;> simp
      · intro x hx y hy
        have hx1 : x = o := by
          by_cases h : t = v
          · simp [h] at hx
            exact hx
          · simp [h] at hx
        obtain ⟨h1, _, _⟩ := positionsAux_mem v ts (o + 1) y hy
        omega

theorem Fr_le_diag_col (T : List Tok) :
    ∀ (r j : Nat), Fr T r j ≤ Fr T j j := by
  intro r
  induction r using Nat.strong_induction_on with
  | _ r ih =>
      intro j
      rw [Fr]
      split
      · rename_i hc
        obtain ⟨hc1, hc2, hc3⟩ := hc
        have hdiag : Fr T j j = if h : j = 0 ∨ j = 0 then 1 else Fr T (j - 1) (j - 1) + 1 := by
          rw [Fr]
          rw [if_pos ⟨rfl, by rw [hc1]; exact hc2, hc3⟩]
        split
        · rename_i h0
          rw [hdiag]
          split
          · omega
          · omega
        · rename_i h0
          have hr1 : r - 1 < r := by omega
          have := ih (r - 1) hr1 (j - 1)
          rw [hdiag]
          rw [dif_neg (by omega)]
          omega
      · omega

theorem Fr_le_diag_row (T : List Tok) :
    ∀ (r j : Nat), r < T.length → Fr T r j ≤ Fr T r r := by
  intro r
  induction r using Nat.strong_induction_on with
  | _ r ih =>
      intro j hr
      rw [Fr]
      split
      · rename_i hc
        obtain ⟨hc1, hc2, hc3⟩ := hc
        have hdiag : Fr T r r = if h : r = 0 ∨ r = 0 then 1 else Fr T (r - 1) (r - 1) + 1 := by
          rw [Fr]
          rw [if_pos ⟨rfl, hc2, hr⟩]
        split
        · rename_i h0
          rw [hdiag]
          split
          · omega
          · omega
        · rename_i h0
          have hr1 : r - 1 < r := by omega
          have := ih (r - 1) hr1 (j - 1) (by omega)
          rw [hdiag]
          rw [dif_neg (by omega)]
          omega
      · omega

theorem innerLoop_acc (bhi i : Nat) (j2len : List (Nat × Nat)) :
    ∀ (js : List Nat) (acc : List (Nat × Nat)) (best : Nat × Nat × Nat),
    (∀ j ∈ js, j < bhi) →
    (innerLoop 0 bhi i j2len js acc best).1 =
      acc ++ js.map (fun j => (j, kOf j2len j)) := by
  intro js
  induction js with
  | nil => intro acc best _; simp [innerLoop]
  | cons j js ih =>
      intro acc best hjs
      have hj : j < bhi := hjs j (List.mem_cons_self _ _)
      simp only [innerLoop, if_neg (by omega : ¬j < 0), if_neg (by omega : ¬bhi ≤ j)]
      rw [ih _ _ (fun j' hj' => hjs j' (List.mem_cons_of_mem _ hj'))]
      simp

theorem innerLoop_best (bhi i : Nat) (j2len : List (Nat × Nat)) :
    ∀ (js : List Nat) (acc : List (Nat × Nat)) (best : Nat × Nat × Nat),
    (∀ j ∈ js, j < bhi) →
    (innerLoop 0 bhi i j2len js acc best).2 =
      js.foldl (fun b j => if b.2.2 < kOf j2len j then
        (i + 1 - kOf j2len j, j + 1 - kOf j2len j, kOf j2len j) else b) best := by
  intro js
  induction js with
  | nil => intro acc best _; simp [innerLoop]
  | cons j js ih =>
      intro acc best hjs
      have hj : j < bhi := hjs j (List.mem_cons_self _ _)
      simp only [innerLoop, if_neg (by omega : ¬j < 0), if_neg (by omega : ¬bhi ≤ j),
        List.foldl_cons]
      exact ih _ _ (fun j' hj' => hjs j' (List.mem_cons_of_mem _ hj'))

theorem lookupJ_map (f : Nat → Nat) :
    ∀ (js : List Nat) (j' : Nat),
    lookupJ (js.map fun j => (j, f j)) j' = if j' ∈ js then f j' else 0 := by
  intro js
  induction js with
  | nil => intro j'; simp [lookupJ]
  | cons j js ih =>
      intro j'
      simp only [List.map_cons, lookupJ]
      by_cases h : j = j'
      · subst h
        simp
      · rw [if_neg h, ih j']
        by_cases h2 : j' ∈ js
        · simp [h2]
        · have hnc : ¬j' ∈ j :: js := by
            intro hmem
            rcases List.mem_cons.mp hmem with hh | hh
            · exact h hh.symm
            · exact h2 hh
          rw [if_neg h2, if_neg hnc]

theorem kOf_eq_Fr (T : List Tok) (m : List (Nat × Nat)) (i j : Nat)
    (hrow : ∀ j', lookupJ m j' = if i = 0 then 0 else Fr T (i - 1) j')
    (hc1 : T.getD j [] = T.getD i []) (hc2 : isPopular T (T.getD i []) = false)
    (hc3 : j < T.length) :
    kOf m j = Fr T i j := by
  rw [Fr, if_pos ⟨hc1, hc2, hc3⟩]
  unfold kOf
  by_cases hj : j = 0
  · subst hj
    rw [if_pos rfl, dif_pos (Or.inr rfl)]
  · rw [if_neg hj, hrow (j - 1)]
    by_cases hi : i = 0
    · rw [if_pos hi, dif_pos (Or.inl hi)]
    · rw [if_neg hi, dif_neg (by omega)]

theorem bestFold_noUpdate (i : Nat) (f : Nat → Nat) :
    ∀ (js : List Nat) (best : Nat × Nat × Nat),
    (∀ j ∈ js, f j ≤ best.2.2) →
    js.foldl (fun b j => if b.2.2 < f j then (i + 1 - f j, j + 1 - f j, f j) else b) best
      = best := by
  intro js
  induction js with
  | nil => intro best _; rfl
  | cons j js ih =>
      intro best hle
      have h1 : f j ≤ best.2.2 := hle j (List.mem_cons_self _ _)
      simp only [List.foldl_cons, if_neg (by omega : ¬best.2.2 < f j)]
      exact ih best (fun j' hj' => hle j' (List.mem_cons_of_mem _ hj'))

theorem rowBest (T : List Tok) (i : Nat) (hi : i < T.length) (m : List (Nat × Nat))
    (hrow : ∀ j', lookupJ m j' = if i = 0 then 0 else Fr T (i - 1) j')
    (p s : Nat) (hps : ∀ r, r < i → Fr T r r ≤ s) :
    (b2j T (T.getD i [])).foldl
      (fun b j => if b.2.2 < kOf m j then
        (i + 1 - kOf m j, j + 1 - kOf m j, kOf m j) else b) (p, p, s) =
    (if s < Fr T i i then (i + 1 - Fr T i i, i + 1 - Fr T i i, Fr T i i) else (p, p, s)) := by
  by_cases hpop : isPopular T (T.getD i []) = true
  · have hjs : b2j T (T.getD i []) = [] := by
      unfold b2j
      rw [if_pos hpop]
    have hFr0 : Fr T i i = 0 := by
      rw [Fr]
      rw [if_neg (fun hcc => by rw [hpop] at hcc; exact absurd hcc.2.1 (by decide))]
    rw [hjs, hFr0]
    simp
  · have hpop2 : isPopular T (T.getD i []) = false := by
      simpa using hpop
    have hjs : b2j T (T.getD i []) = positionsOf T (T.getD i []) := by
      unfold b2j
      rw [if_neg (fun hcc => by rw [hpop2] at hcc; exact absurd hcc (by decide))]
    have hmem : i ∈ positionsOf T (T.getD i []) := positionsOf_complete T _ i hi rfl
    obtain ⟨L, R, hsplit⟩ := List.append_of_mem hmem
    have hcondAll : ∀ j ∈ positionsOf T (T.getD i []),
        T.getD j [] = T.getD i [] ∧ j < T.length := by
      intro j hj
      obtain ⟨h1, h2, h3⟩ := positionsAux_mem (T.getD i []) T 0 j hj
      refine ⟨by simpa only [Nat.sub_zero] using h3, by omega⟩
    have hkOfMem : ∀ j ∈ positionsOf T (T.getD i []), kOf m j = Fr T i j := by
      intro j hj
      obtain ⟨h1, h2⟩ := hcondAll j hj
      exact kOf_eq_Fr T m i j hrow h1 hpop2 h2
    have hsorted := positionsAux_sorted (T.getD i []) T 0
    have hsorted2 : (L ++ i :: R).Pairwise (· < ·) := by
      rw [← hsplit]
      exact hsorted
    rw [List.pairwise_append] at hsorted2
    obtain ⟨hL, hiR, hLR⟩ := hsorted2
    have hLlt : ∀ j ∈ L, j < i := fun j hj => hLR j hj i (List.mem_cons_self _ _)
    have hRgt : ∀ j ∈ R, i < j := (List.pairwise_cons.mp hiR).1
    have hki : kOf m i = Fr T i i :=
      kOf_eq_Fr T m i i hrow rfl hpop2 hi
    rw [hjs, hsplit, List.foldl_append]
    have hfL : L.foldl (fun b j => if b.2.2 < kOf m j then
        (i + 1 - kOf m j, j + 1 - kOf m j, kOf m j) else b) (p, p, s) = (p, p, s) := by
      apply bestFold_noUpdate
      intro j hj
      have hjmem : j ∈ positionsOf T (T.getD i []) := by
        rw [hsplit]
        exact List.mem_append_left _ hj
      rw [hkOfMem j hjmem]
      have h1 : Fr T i j ≤ Fr T j j := Fr_le_diag_col T i j
      have h2 : Fr T j j ≤ s := hps j (hLlt j hj)
      show Fr T i j ≤ s
      omega
    rw [hfL]
    simp only [List.foldl_cons]
    by_cases hsi : s < Fr T i i
    · rw [if_pos hsi]
      have hstep : (if (p, p, s).2.2 < kOf m i then
          (i + 1 - kOf m i, i + 1 - kOf m i, kOf m i) else (p, p, s)) =
          (i + 1 - Fr T i i, i + 1 - Fr T i i, Fr T i i) := by
        rw [hki]
        rw [if_pos (by simpa using hsi)]
      rw [hstep]
      apply bestFold_noUpdate
      intro j hj
      have hjmem : j ∈ positionsOf T (T.getD i []) := by
        rw [hsplit]
        exact List.mem_append_right _ (List.mem_cons_of_mem _ hj)
      rw [hkOfMem j hjmem]
      have h1 : Fr T i j ≤ Fr T i i := Fr_le_diag_row T i j hi
      show Fr T i j ≤ Fr T i i
      omega
    · rw [if_neg hsi]
      have hstep : (if (p, p, s).2.2 < kOf m i then
          (i + 1 - kOf m i, i + 1 - kOf m i, kOf m i) else (p, p, s)) = (p, p, s) := by
        rw [hki]
        rw [if_neg (by simpa using hsi)]
      rw [hstep]
      apply bestFold_noUpdate
      intro j hj
      have hjmem : j ∈ positionsOf T (T.getD i []) := by
        rw [hsplit]
        exact List.mem_append_right _ (List.mem_cons_of_mem _ hj)
      rw [hkOfMem j hjmem]
      have h1 : Fr T i j ≤ Fr T i i := Fr_le_diag_row T i j hi
      show Fr T i j ≤ s
      omega

theorem outerLoop_self (T : List Tok) :
    ∀ (cnt i : Nat) (m : List (Nat × Nat)) (p s : Nat),
    i + cnt = T.length →
    (∀ j', lookupJ m j' = if i = 0 then 0 else Fr T (i - 1) j') →
    (∀ r, r < i → Fr T r r ≤ s) →
    ∃ p' s', outerLoop (b2j T) 0 T.length T i cnt m (p, p, s) = (p', p', s') := by
  intro cnt
  induction cnt with
  | zero =>
      intro i m p s _ _ _
      exact ⟨p, s, rfl⟩
  | succ c ih =>
      intro i m p s hn hrow hps
      have hi : i < T.length := by omega
      have hjsb : ∀ j ∈ b2j T (T.getD i []), j < T.length := by
        intro j hj
        by_cases hpop : isPopular T (T.getD i []) = true
        · unfold b2j at hj
          rw [if_pos hpop] at hj
          simp at hj
        · unfold b2j at hj
          rw [if_neg hpop] at hj
          obtain ⟨_, h2, _⟩ := positionsAux_mem _ T 0 j hj
          omega
      simp only [outerLoop]
      rw [innerLoop_acc T.length i m _ [] (p, p, s) hjsb,
        innerLoop_best T.length i m _ [] (p, p, s) hjsb]
      rw [rowBest T i hi m hrow p s hps]
      have hrow2 : ∀ j', lookupJ ([] ++ (b2j T (T.getD i [])).map
          (fun j => (j, kOf m j))) j' = if i + 1 = 0 then 0 else Fr T (i + 1 - 1) j' := by
        intro j'
        simp only [List.nil_append, Nat.add_sub_cancel, if_neg (Nat.succ_ne_zero i)]
        rw [lookupJ_map (kOf m) _ j']
        by_cases hmem : j' ∈ b2j T (T.getD i [])
        · rw [if_pos hmem]
          by_cases hpop : isPopular T (T.getD i []) = true
          · unfold b2j at hmem
            rw [if_pos hpop] at hmem
            simp at hmem
          · have hpop2 : isPopular T (T.getD i []) = false := by
              simpa using hpop
            unfold b2j at hmem
            rw [if_neg hpop] at hmem
            obtain ⟨_, h2, h3⟩ := positionsAux_mem _ T 0 j' hmem
            exact kOf_eq_Fr T m i j' hrow (by simpa only [Nat.sub_zero] using h3)
              hpop2 (by omega)
        · rw [if_neg hmem]
          by_cases hpop : isPopular T (T.getD i []) = true
          · rw [Fr, if_neg (fun hcc => by rw [hpop] at hcc; exact absurd hcc.2.1 (by decide))]
          · have hpop2 : isPopular T (T.getD i []) = false := by
              simpa using hpop
            rw [Fr]
            rw [if_neg ?_]
            intro hcc
            obtain ⟨hc1, _, hc3⟩ := hcc
            apply hmem
            unfold b2j
            rw [if_neg (fun hcc2 => by rw [hpop2] at hcc2; exact absurd hcc2 (by decide))]
            exact positionsOf_complete T _ j' hc3 hc1
      by_cases hsi : s < Fr T i i
      · rw [if_pos hsi]
        exact ih (i + 1) _ (i + 1 - Fr T i i) (Fr T i i) (by omega) hrow2
          (by intro r hr
              by_cases hri : r = i
              · subst hri
                exact le_refl _
              · have := hps r (by omega)
                omega)
      · rw [if_neg hsi]
        exact ih (i + 1) _ p s (by omega) hrow2
          (by intro r hr
              by_cases hri : r = i
              · subst hri
                omega
              · exact hps r (by omega))

theorem extBack_diag (T : List Tok) :
    ∀ (p s : Nat), extBack T T 0 0 (p, p, s) = (0, 0, s + p) := by
  intro p
  induction p with
  | zero =>
      intro s
      rw [extBack]
      simp
  | succ p ih =>
      intro s
      rw [extBack]
      rw [if_pos ⟨Nat.succ_pos p, Nat.succ_pos p, rfl, rfl⟩]
      simp only [Nat.add_sub_cancel]
      rw [ih (s + 1)]
      have e : s + (p + 1) = s + 1 + p := by omega
      rw [e]

theorem extFwd_diag (T : List Tok) :
    ∀ (d s : Nat), T.length - s = d → s ≤ T.length →
    extFwd T T T.length T.length (0, 0, s) = (0, 0, T.length) := by
  intro d
  induction d with
  | zero =>
      intro s hd hs
      have hsn : s = T.length := by omega
      subst hsn
      rw [extFwd]
      simp
  | succ c ih =>
      intro s hd hs
      have hlt : s < T.length := by omega
      rw [extFwd]
      rw [if_pos ⟨by omega, by omega, rfl, rfl⟩]
      exact ih (s + 1) (by omega) (by omega)

/-- `find_longest_match` on a sequence against itself over the full range
returns the whole diagonal. -/
theorem flm_self (T : List Tok) :
    findLongestMatch T T 0 T.length 0 T.length = (0, 0, T.length) := by
  obtain ⟨p', s', hcore⟩ := outerLoop_self T (T.length - 0) 0 [] 0 0
    (by omega) (by intro j'; simp [lookupJ]) (by intro r hr; omega)
  have hsound := outerLoop_sound T T 0 T.length 0 T.length (T.length - 0) 0 []
    (0, 0, 0) (le_refl _) (by omega) (by intro q hq; simp at hq)
    ⟨le_refl _, le_refl _, fun _ => ⟨rfl, rfl⟩, fun h => absurd rfl h⟩
  rw [hcore] at hsound
  obtain ⟨_, _, h0, hne⟩ := hsound
  have hps : p' + s' ≤ T.length := by
    by_cases hs0 : s' = 0
    · have := h0 (by simpa using hs0)
      simp at this
      omega
    · have := hne (by simpa using hs0)
      simp at this
      omega
  unfold findLongestMatch
  rw [hcore, extBack_diag T p' s',
    extFwd_diag T (T.length - (s' + p')) (s' + p') rfl (by omega),
    extBackJunk_id, extFwdJunk_id]

/-- Aligning any token sequence against itself yields no opcode when it is
empty, and exactly one full-width Equal opcode otherwise. -/
theorem getOpcodes_self (T : List Tok) (hT : T ≠ []) :
    getOpcodes T T = [⟨Tag.equal, 0, T.length, 0, T.length⟩] := by
  have hn : T.length ≠ 0 := fun h => hT (List.eq_nil_of_length_eq_zero h)
  have hblocks : matchingBlocksRec T T 0 T.length 0 T.length = [(0, 0, T.length)] := by
    rw [matchingBlocksRec]
    have hm : findLongestMatch T T 0 T.length 0 T.length = (0, 0, T.length) := flm_self T
    rw [dif_neg (by rw [hm]; exact hn)]
    rw [dif_neg (by rw [hm]; simp), dif_neg (by rw [hm]; simp)]
    rw [hm]
    simp
  unfold getOpcodes getMatchingBlocks
  rw [hblocks]
  have hcollapse : collapseAux T.length T.length 0 0 0 [(0, 0, T.length)] =
      [(0, 0, T.length), (T.length, T.length, 0)] := by
    rw [collapseAux]
    rw [if_pos ⟨rfl, rfl⟩]
    rw [collapseAux]
    rw [if_pos (by omega)]
    simp
  rw [hcollapse]
  rw [opcodesAux]
  rw [if_neg (by omega), if_neg (by omega), if_neg (by omega), if_pos (by omega)]
  rw [opcodesAux]
  rw [if_neg (by omega), if_neg (by omega), if_neg (by omega),
    if_neg (by omega : ¬(0 : Nat) ≠ 0)]
  simp [opcodesAux]

theorem classifyAux_types (tT aT : List Tok) :
    ∀ (ops : List Op) (col : Nat),
    ∀ e ∈ classifyAux tT aT col ops, e.type = audioMismatchStr := by
  intro ops
  induction ops with
  | nil => intro col e he; simp [classifyAux] at he
  | cons op rest ih =>
      intro col e he
      by_cases h1 : op.tag = Tag.replace ∨ op.tag = Tag.delete
      · rw [classifyAux, if_pos h1] at he
        rcases List.mem_cons.mp he with he | he
        · subst he
          rfl
        · exact ih (col + 1) e he
      · by_cases h2 : op.tag = Tag.insert
        · rw [classifyAux, if_neg h1, if_pos h2] at he
          rcases List.mem_cons.mp he with he | he
          · subst he
            rfl
          · exact ih (col + 1) e he
        · rw [classifyAux, if_neg h1, if_neg h2] at he
          exact ih col e he

theorem grammarFlags_types (s : List Char) :
    ∀ e ∈ grammarFlags s, e.type = spellingStr := by
  intro e he
  rw [grammarFlags_split] at he
  rcases List.mem_append.mp he with he | he
  · split at he
    · rcases List.mem_singleton.mp he with rfl
      rfl
    · simp at he
  · split at he
    · rcases List.mem_singleton.mp he with rfl
      rfl
    · simp at he

/-- The C3 counterexample token sequences (single-character tokens of
"abcbdab" and "bdcaba"). -/
def cexA : List Tok := [['a'], ['b'], ['c'], ['b'], ['d'], ['a'], ['b']]

/-- Second sequence of the C3 counterexample. -/
def cexB : List Tok := [['b'], ['d'], ['c'], ['a'], ['b'], ['a']]

/-! ## The claims -/

/-- Claim C1, counterexample: the claim as stated quantifies over every
token sequence, but aligning the empty token sequence against itself yields
zero opcodes (difflib emits no Equal opcode for the empty dummy block), not
exactly one. -/
theorem claim_C1_counterexample :
    ¬((getOpcodes ([] : List Tok) []).length = 1) := by
  rw [getOpcodes_nil_nil]
  decide

/-- Claim C1 (amended to non-empty sequences): for every non-empty token
sequence T, aligning T against itself yields exactly one opcode, an Equal
opcode covering `[0, len T)` on both sides, and classifying that opcode
sequence yields zero discrepancies. -/
theorem claim_C1 (T : List Tok) (hT : T ≠ []) :
    getOpcodes T T = [⟨Tag.equal, 0, T.length, 0, T.length⟩] ∧
    classifyAux T T 1 (getOpcodes T T) = [] := by
  have h := getOpcodes_self T hT
  refine ⟨h, ?_⟩
  rw [h]
  simp [classifyAux]

/-- Witness for claim C1 at the concrete one-token sequence containing the
token "a". -/
theorem claim_C1_witness :
    ([['a']] : List Tok) ≠ [] ∧
    (getOpcodes ([['a']] : List Tok) [['a']] = [⟨Tag.equal, 0, 1, 0, 1⟩] ∧
      classifyAux [['a']] [['a']] 1 (getOpcodes ([['a']] : List Tok) [['a']]) = []) :=
  ⟨by decide, claim_C1 [['a']] (by decide)⟩

/-- Claim C2: for every pair of input texts, the opcode sequence produced
by the aligner has ranges that start exactly where the previous opcode
ended on both sides, strictly advance at least one side, and end exactly at
the token-sequence lengths: the ranges partition `[0, len ref)` and
`[0, len obs)` with no gaps or overlaps, monotonically increasing. -/
theorem claim_C2 (t a : List Char) :
    chainOps (tokenizeL (lowerL t)).length (tokenizeL (lowerL a)).length 0 0
      (alignOps t a) :=
  getOpcodes_chain _ _

/-- Claim C3, counterexample: on the token sequences a,b,c,b,d,a,b and
b,d,c,a,b,a the greedy longest-matching-block recursion matches only 3
tokens while a longest common subsequence has length 4, so the aligner does
not maximize the total number of matched tokens. -/
theorem claim_C3_counterexample :
    ¬(matchedTotal (getOpcodes cexA cexB) = lcsLen cexA cexB) := by
  have h1 : matchedTotal (getOpcodes cexA cexB) = 3 := by
    simp [cexA, cexB, getOpcodes, getMatchingBlocks, matchingBlocksRec, findLongestMatch,
      outerLoop, innerLoop, b2j, isPopular, positionsOf, positionsAux, countTok, kOf,
      lookupJ, extBack, extFwd, extBackJunk, extFwdJunk, bjunk, collapseAux, opcodesAux,
      matchedTotal]
  have h2 : lcsLen cexA cexB = 4 := by
    simp [cexA, cexB, lcsLen]
  rw [h1, h2]
  decide

/-- Claim C3 (amended): for every pair of token sequences, the combined
size of the aligner's Equal ranges is at most the length of a longest
common subsequence; the greedy longest-matching-block recursion does not
always attain that maximum. -/
theorem claim_C3 (a b : List Tok) :
    matchedTotal (getOpcodes a b) ≤ lcsLen a b :=
  matched_le_lcs a b

/-- Claim C4, counterexample: the claim as stated quantifies over every
non-empty text X, but for the whitespace-only text consisting of a single
space the token sequence is empty, so aligning an empty reference against
it yields no opcode at all rather than a single Insert. -/
theorem claim_C4_counterexample :
    ([' '] : List Char) ≠ [] ∧ alignOps [] [' '] = [] ∧ alignStub [] [' '] = [] := by
  refine ⟨by decide, ?_, ?_⟩
  · show getOpcodes ([] : List Tok) [] = []
    exact getOpcodes_nil_nil
  · show classifyAux [] [] 1 (alignOps [] [' ']) = []
    have h : alignOps ([] : List Char) [' '] = [] := getOpcodes_nil_nil
    rw [h]
    rfl

/-- Claim C4 (amended to texts with a non-empty token sequence): aligning
an empty reference against X yields a single Insert opcode and exactly one
discrepancy whose original is "(missing)"; aligning X against an empty
observed text yields a single Delete opcode and exactly one discrepancy
whose suggested text is "(remove)"; aligning two empty texts yields no
opcodes and no discrepancies. -/
theorem claim_C4 (X : List Char) (hX : tokenizeL (lowerL X) ≠ []) :
    alignOps [] X = [⟨Tag.insert, 0, 0, 0, (tokenizeL (lowerL X)).length⟩] ∧
    (alignStub [] X).length = 1 ∧
    (∀ e ∈ alignStub [] X, e.original = missingStr) ∧
    alignOps X [] = [⟨Tag.delete, 0, (tokenizeL (lowerL X)).length, 0, 0⟩] ∧
    (alignStub X []).length = 1 ∧
    (∀ e ∈ alignStub X [], e.suggested = removeStr) ∧
    alignOps ([] : List Char) [] = [] ∧ alignStub ([] : List Char) [] = [] := by
  have hIns : alignOps [] X = [⟨Tag.insert, 0, 0, 0, (tokenizeL (lowerL X)).length⟩] := by
    show getOpcodes [] (tokenizeL (lowerL X)) = _
    exact getOpcodes_nil_a _ hX
  have hDel : alignOps X [] = [⟨Tag.delete, 0, (tokenizeL (lowerL X)).length, 0, 0⟩] := by
    show getOpcodes (tokenizeL (lowerL X)) [] = _
    exact getOpcodes_nil_b _ hX
  have hStubIns : alignStub [] X =
      [⟨1, 1, missingStr,
        take80 (joinSp (sliceL (tokenizeL (lowerL X)) 0 (tokenizeL (lowerL X)).length)),
        0.7, audioMismatchStr⟩] := by
    show classifyAux [] (tokenizeL (lowerL X)) 1 (alignOps [] X) = _
    rw [hIns]
    simp [classifyAux]
  have hStubDel : alignStub X [] =
      [⟨1, 1,
        (if take80 (joinSp (sliceL (tokenizeL (lowerL X)) 0 (tokenizeL (lowerL X)).length)) = []
          then missingStr
          else take80 (joinSp (sliceL (tokenizeL (lowerL X)) 0 (tokenizeL (lowerL X)).length))),
        removeStr, 0.75, audioMismatchStr⟩] := by
    show classifyAux (tokenizeL (lowerL X)) [] 1 (alignOps X []) = _
    rw [hDel]
    simp [classifyAux, sliceL, joinSp, take80]
  refine ⟨hIns, by rw [hStubIns]; rfl, ?_, hDel, by rw [hStubDel]; rfl, ?_, ?_, ?_⟩
  · intro e he
    rw [hStubIns] at he
    rcases List.mem_singleton.mp he with rfl
    rfl
  · intro e he
    rw [hStubDel] at he
    rcases List.mem_singleton.mp he with rfl
    rfl
  · exact getOpcodes_nil_nil
  · show classifyAux [] [] 1 (alignOps ([] : List Char) []) = []
    have h : alignOps ([] : List Char) [] = [] := getOpcodes_nil_nil
    rw [h]
    rfl

/-- Witness for claim C4 at the concrete text "hi". -/
theorem claim_C4_witness :
    tokenizeL (lowerL (['h', 'i'] : List Char)) ≠ [] ∧
    (alignStub [] (['h', 'i'] : List Char)).length = 1 ∧
    (alignStub (['h', 'i'] : List Char) []).length = 1 :=
  ⟨by decide, (claim_C4 ['h', 'i'] (by decide)).2.1,
    (claim_C4 ['h', 'i'] (by decide)).2.2.2.2.1⟩

/-- Claim C5: classification emits exactly one discrepancy per non-Equal
opcode, in opcode order and none for Equal opcodes, with the prescribed
fields per kind (replace/delete: space-joined reference slice truncated to
80 characters with the "(missing)" fallback, observed slice with the
"(remove)" fallback, confidence 0.75; insert: original "(missing)",
truncated observed slice, confidence 0.7; kind always audio_mismatch),
line always 1, and column equal to 1 plus the number of discrepancies
emitted before it (encoded by pairing the filtered opcodes with the
arithmetic range starting at 1). -/
theorem claim_C5 (tT aT : List Tok) (ops : List Op) :
    classifyAux tT aT 1 ops =
      List.zipWith (specClassifyItem tT aT)
        (ops.filter (fun op => decide (op.tag ≠ Tag.equal)))
        (List.range' 1 (ops.filter (fun op => decide (op.tag ≠ Tag.equal))).length) :=
  classifyAux_spec tT aT ops 1

/-- Claim C6: for every reference text and every entry of the known-error
table, the lexical flagging pass emits exactly one spelling discrepancy
with confidence 0.95 at line 1 column 1 when the error form occurs in the
text, and none otherwise; and the spelling-typed part of the full error
list of the endpoint is exactly the lexical pass output, independent of
the observed text and of alignment. -/
theorem claim_C6 (s a : List Char) (bad good : List Char)
    (hmem : (bad, good) ∈ knownErrors) :
    ((grammarFlags s).filter (fun e => decide (e.original = bad)) =
      if occursL bad s = true then [⟨1, 1, bad, good, 0.95, spellingStr⟩] else []) ∧
    (serviceErrors s a).filter (fun e => decide (e.type = spellingStr)) = grammarFlags s := by
  constructor
  · have hcases : (bad, good) = (councelorStr, counselorStr) ∨
        (bad, good) = (inadmissableStr, inadmissibleStr) := by
      simpa [knownErrors] using hmem
    rw [grammarFlags_split]
    rcases hcases with h | h
    · injection h with hb hg
      subst hb
      subst hg
      by_cases h1 : occursL councelorStr s = true
      · by_cases h2 : occursL inadmissableStr s = true
        · rw [if_pos h1, if_pos h2]
          simp only [List.singleton_append, List.filter]
          norm_num [councelorStr, inadmissableStr]
          decide
        · rw [if_pos h1, if_neg h2]
          simp only [List.append_nil, List.filter]
          norm_num [councelorStr]
      · by_cases h2 : occursL inadmissableStr s = true
        · rw [if_neg h1, if_pos h2]
          simp only [List.nil_append, List.filter]
          norm_num [councelorStr, inadmissableStr]
          decide
        · rw [if_neg h1, if_neg h2]
          simp
    · injection h with hb hg
      subst hb
      subst hg
      by_cases h1 : occursL councelorStr s = true
      · by_cases h2 : occursL inadmissableStr s = true
        · rw [if_pos h1, if_pos h2]
          simp only [List.singleton_append, List.filter]
          norm_num [councelorStr, inadmissableStr]
          rfl
        · rw [if_pos h1, if_neg h2]
          simp only [List.append_nil, List.filter]
          norm_num [councelorStr, inadmissableStr]
          rfl
      · by_cases h2 : occursL inadmissableStr s = true
        · rw [if_neg h1, if_pos h2]
          simp only [List.nil_append, List.filter]
          norm_num [inadmissableStr]
        · rw [if_neg h1, if_neg h2]
          simp
  · unfold serviceErrors
    rw [List.filter_append]
    have h1 : (alignStub s a).filter (fun e => decide (e.type = spellingStr)) = [] := by
      apply List.filter_eq_nil_iff.mpr
      intro e he
      have := classifyAux_types (tokenizeL (lowerL s)) (tokenizeL (lowerL a))
        (alignOps s a) 1 e he
      simp [this, audioMismatchStr, spellingStr]
    have h2 : (grammarFlags s).filter (fun e => decide (e.type = spellingStr)) =
        grammarFlags s := by
      apply List.filter_eq_self.mpr
      intro e he
      simp [grammarFlags_types s e he]
    rw [h1, h2, List.nil_append]

/-- Witness for claim C6 at the first table entry and the reference text
"councelor". -/
theorem claim_C6_witness :
    (councelorStr, counselorStr) ∈ knownErrors ∧
    (grammarFlags councelorStr).filter (fun e => decide (e.original = councelorStr)) =
      [⟨1, 1, councelorStr, counselorStr, 0.95, spellingStr⟩] := by
  refine ⟨by decide, ?_⟩
  have h := (claim_C6 councelorStr [] councelorStr counselorStr (by decide)).1
  rw [h, if_pos (by decide : occursL councelorStr councelorStr = true)]

/-- Claim C7: the lexical flagging pass applied to the corrector's output
yields zero discrepancies for every reference text: after the table-order
substitutions no known-error form occurs in the corrected text. -/
theorem claim_C7 (s : List Char) : grammarFlags (correctText s) = [] := by
  obtain ⟨h1, h2⟩ := correct_free s
  rw [grammarFlags_split, h1, h2]
  simp

/-- Claim C8: the summary's confidence score is exactly 0.95 for the empty
discrepancy list and exactly 0.8 for every non-empty discrepancy list,
regardless of the individual discrepancies. -/
theorem claim_C8 (es : List ErrorItem) :
    (es = [] → (summarize es).confidenceScore = 0.95) ∧
    (es ≠ [] → (summarize es).confidenceScore = 0.8) := by
  constructor
  · intro h
    simp [summarize, h]
  · intro h
    simp [summarize, h]

/-- Witness for claim C8 at the empty list and a one-element list. -/
theorem claim_C8_witness :
    (summarize []).confidenceScore = 0.95 ∧
    (summarize [⟨1, 1, missingStr, removeStr, 0.75, audioMismatchStr⟩]).confidenceScore
      = 0.8 :=
  ⟨(claim_C8 []).1 rfl,
    (claim_C8 [⟨1, 1, missingStr, removeStr, 0.75, audioMismatchStr⟩]).2 (by decide)⟩

/-- Claim C9: the per-kind counts in byType sum to totalErrors, which
equals the length of the discrepancy list, and byType has a key exactly
for each kind occurring in the list. -/
theorem claim_C9 (es : List ErrorItem) :
    (((summarize es).byType.map Prod.snd).sum = (summarize es).totalErrors) ∧
    ((summarize es).totalErrors = es.length) ∧
    (∀ k, (∃ v, (k, v) ∈ (summarize es).byType) ↔ k ∈ es.map ErrorItem.type) := by
  refine ⟨?_, rfl, ?_⟩
  · show ((byTypeOf es).map Prod.snd).sum = es.length
    have h := byTypeFold_sum es []
    simpa [byTypeOf] using h
  · intro k
    have h := byTypeFold_mem es [] k
    simpa [byTypeOf] using h

/-- Claim C10: the known-error table is matched case-sensitively: a
reference text containing neither exact-case error form (for example one
containing only the differently-cased "Councelor") is neither flagged as a
spelling discrepancy nor altered by the corrector. -/
theorem claim_C10 (s : List Char)
    (h1 : occursL councelorStr s = false)
    (h2 : occursL inadmissableStr s = false) :
    grammarFlags s = [] ∧ correctText s = s := by
  constructor
  · rw [grammarFlags_split, h1, h2]
    simp
  · unfold correctText
    rw [replace_noOccur councelorStr counselorStr s h1]
    exact replace_noOccur inadmissableStr inadmissibleStr s h2

/-- Witness for claim C10 at the differently-cased text "Councelor". -/
theorem claim_C10_witness :
    occursL councelorStr ['C', 'o', 'u', 'n', 'c', 'e', 'l', 'o', 'r'] = false ∧
    occursL inadmissableStr ['C', 'o', 'u', 'n', 'c', 'e', 'l', 'o', 'r'] = false ∧
    grammarFlags ['C', 'o', 'u', 'n', 'c', 'e', 'l', 'o', 'r'] = [] ∧
    correctText ['C', 'o', 'u', 'n', 'c', 'e', 'l', 'o', 'r'] =
      ['C', 'o', 'u', 'n', 'c', 'e', 'l', 'o', 'r'] :=
  ⟨by decide, by decide,
    (claim_C10 _ (by decide) (by decide)).1,
    (claim_C10 _ (by decide) (by decide)).2⟩
